import Mathlib

/-!
Shallow embedding of the dOrg filesystem engine (src/backend of the repository):
path validation (config.py), move execution (filesystem.py: apply_moves),
empty-folder pruning (filesystem.py: remove_empty_folders), tree scanning
(filesystem.py: scan_tree), the extension planner (organize.py:
organize_by_file_type) and the orchestration endpoints (main.py:
apply_file_moves, undo_last_moves).

The filesystem is modelled as a flat store of file entries (path, size) and
directory entries, with paths as lists of segments relative to the sandbox
root.  String-level operations of the source (str.split, str.startswith,
str.rsplit, os.path.dirname, pathlib suffix) are re-implemented over
character lists so that every definition is executable and inductive.
-/

namespace DOrg

/-- `splitCharsOn c l` mirrors Python `str.split(sep)` at character level:
splitting on every occurrence of `c`, keeping empty groups. -/
def splitCharsOn (c : Char) : List Char → List (List Char)
  | [] => [[]]
  | a :: rest =>
    match splitCharsOn c rest with
    | [] => [[]]
    | g :: gs => if a = c then [] :: g :: gs else (a :: g) :: gs

/-- Python `".." in s`: the two-character substring `..` occurs in `l`. -/
def containsDD : List Char → Bool
  | a :: b :: rest => (a = '.' && b = '.') || containsDD (b :: rest)
  | _ => false

/-- Last index of character `c` in the list, if any. -/
def lastIdxOf (c : Char) : List Char → Option Nat
  | [] => none
  | a :: rest =>
    match lastIdxOf c rest with
    | some i => some (i + 1)
    | none => if a = c then some 0 else none

/-- `pathlib.PurePath(name).suffix` on a single component: the substring from
the last dot onward, provided that dot is neither the first nor the last
character; otherwise empty (CPython: `0 < i < len(name) - 1`). -/
def pathSuffix (l : List Char) : List Char :=
  match lastIdxOf '.' l with
  | some i => if 0 < i ∧ i + 1 < l.length then l.drop i else []
  | none => []

/-- `os.path.dirname` on a relative POSIX path: everything up to the last
slash, with trailing slashes stripped unless the head is all slashes. -/
def dirnameChars (l : List Char) : List Char :=
  match lastIdxOf '/' l with
  | none => []
  | some i =>
    let head := l.take (i + 1)
    if head.any (· ≠ '/') then (head.reverse.dropWhile (· = '/')).reverse else head

/-- Python `s.rsplit("/", 1)[0]`: the characters strictly before the last
slash (no stripping, unlike dirname); the whole string when there is no
slash. -/
def beforeLastSlash : List Char → List Char
  | [] => []
  | a :: rest =>
    if '/' ∈ rest then a :: beforeLastSlash rest
    else if a = '/' then []
    else a :: beforeLastSlash rest

/-- Byte-wise (code-point) `≤` on names, the order `sorted(..., key=e.name)`
uses for directory entries. -/
def lexLe : List Char → List Char → Bool
  | [], _ => true
  | _ :: _, [] => false
  | a :: as, b :: bs => if a = b then lexLe as bs else decide (a < b)

/-- A path segment (one component of a relative path). -/
abbrev Seg := String

/-- A sandbox-relative path in resolved form: the list of its segments. -/
abbrev Path := List Seg

/-- Segments of a relative path string after `os.path.abspath` normalization
of the joined path: empty segments and `.` segments disappear.  Faithful for
paths without `..` (the only ones that survive `validate_path`). -/
def segsOf (s : String) : Path :=
  ((splitCharsOn '/' s.toList).filter (fun g => g ≠ [] ∧ g ≠ ['.'])).map List.asString

/-- `get_depth` of filesystem.apply_moves: `len([p for p in path.split("/") if p])`
(counts every non-empty segment, including `.`). -/
def get_depth (s : String) : Nat :=
  ((splitCharsOn '/' s.toList).filter (fun g => g ≠ [])).length

/-- `get_depth` of filesystem.remove_empty_folders:
`len([p for p in path.split("/") if p and p != '.'])`. -/
def pruneDepth (s : String) : Nat :=
  ((splitCharsOn '/' s.toList).filter (fun g => g ≠ [] ∧ g ≠ ['.'])).length

/-- models.MoveItem: one move of `from_path` to `to_path`, both sandbox-relative. -/
structure MoveItem where
  from_path : String
  to_path : String
deriving DecidableEq, Repr

/-- models.MoveResultItem: per-move outcome; `status` is one of the source's
string statuses `dry_ok`, `moved`, `moved_fallback`, `skip`, `error`. -/
structure MoveResultItem where
  from_path : String
  to_path : String
  status : String
  reason : Option String
deriving DecidableEq, Repr

/-- The modelled filesystem under the sandbox root: file entries (path and
size in bytes) and directory entries, keyed by resolved relative path.  The
root itself is the empty path and always exists as a directory. -/
structure FS where
  files : List (Path × Nat)
  dirs : List Path
deriving DecidableEq, Repr

/-- A file entry exists at `p`. -/
def FS.isFile (fs : FS) (p : Path) : Bool :=
  fs.files.any (fun e => e.1 = p)

/-- A directory exists at `p` (the root `[]` always does). -/
def FS.isDir (fs : FS) (p : Path) : Bool :=
  p = [] || fs.dirs.contains p

/-- `os.path.exists` under the root. -/
def FS.pathExists (fs : FS) (p : Path) : Bool :=
  fs.isFile p || fs.isDir p

/-- The non-empty prefixes of a path, shortest first. -/
def prefixesOf (p : Path) : List Path :=
  (List.range p.length).map (fun i => p.take (i + 1))

/-- `os.makedirs(d, exist_ok=True)`: create every missing ancestor of `d`
(assuming no component is an existing file; apply's step checks that first). -/
def FS.makedirs (fs : FS) (d : Path) : FS :=
  { fs with dirs := fs.dirs ++ (prefixesOf d).filter (fun q => !(fs.isDir q)) }

/-- `os.rename(src, dst)` inside the sandbox: a file entry is re-keyed; a
directory is re-keyed together with everything below it.  The model keeps
the same-volume success path (the cross-volume `shutil.move` fallback has
identical effect on the tree it owns and is not distinguished here). -/
def FS.rename (fs : FS) (src dst : Path) : FS :=
  if fs.isFile src then
    { fs with files := fs.files.map (fun e => if e.1 = src then (dst, e.2) else e) }
  else
    { files := fs.files.map
        (fun e => if src.isPrefixOf e.1 then (dst ++ e.1.drop src.length, e.2) else e),
      dirs := fs.dirs.map
        (fun d => if src.isPrefixOf d then dst ++ d.drop src.length else d) }

/-- The resolved absolute path `os.path.abspath(os.path.join(root, rel))`
as a character list, for a `rel` that contains no `..` and does not start
with `/` (the only inputs on which `validate_path` consults it): the root
followed by the cleaned segments of `rel`. -/
def abspathJoin (root : String) (rel : String) : List Char :=
  (segsOf rel).foldl (fun acc s => acc ++ '/' :: s.toList) root.toList

/-- config.validate_path: reject a relative path containing the substring
`..` or starting with `/`; otherwise check that the resolved absolute path
still starts with the root. -/
def validate_path (root : String) (rel : String) : Bool :=
  if containsDD rel.toList || rel.toList.take 1 = ['/'] then false
  else root.toList.isPrefixOf (abspathJoin root rel)

/-- One iteration of apply_moves' per-move loop (filesystem.py lines
136-212), acting on the filesystem as it stands when the move is processed.
Source-missing and destination-exists are checked in that order; a dry run
stops there; otherwise the destination's parent chain is created and the
entry renamed.  `os.makedirs` raising because a path component is an
existing file is the per-item caught exception of the source's outer
`except`, reported as a per-item `error` (its reason string is abstracted
to a constant). -/
def applyStep (dry_run : Bool) (acc : FS × List MoveResultItem) (m : MoveItem) :
    FS × List MoveResultItem :=
  let fs := acc.1
  let src := segsOf m.from_path
  let dst := segsOf m.to_path
  if !(fs.pathExists src) then
    (fs, acc.2 ++ [⟨m.from_path, m.to_path, "error", some "source_not_found"⟩])
  else if fs.pathExists dst then
    (fs, acc.2 ++ [⟨m.from_path, m.to_path, "skip", some "destination_exists"⟩])
  else if dry_run then
    (fs, acc.2 ++ [⟨m.from_path, m.to_path, "dry_ok", none⟩])
  else if (prefixesOf dst.dropLast).any (fun q => fs.isFile q) then
    (fs, acc.2 ++ [⟨m.from_path, m.to_path, "error", some "makedirs_failed"⟩])
  else
    ((fs.makedirs dst.dropLast).rename src dst,
     acc.2 ++ [⟨m.from_path, m.to_path, "moved", none⟩])

/-- Insert a move into an already depth-descending list, after every element
of greater or equal depth: the stable descending order Python's
`sorted(key=..., reverse=True)` produces. -/
def insertByDepth (m : MoveItem) : List MoveItem → List MoveItem
  | [] => [m]
  | x :: xs =>
    if get_depth m.from_path ≤ get_depth x.from_path then x :: insertByDepth m xs
    else m :: x :: xs

/-- `sorted(moves, key=lambda m: get_depth(m.from_path), reverse=True)`:
stable sort by depth of `from_path`, deepest first. -/
def sortMovesByDepthDesc (ms : List MoveItem) : List MoveItem :=
  ms.foldl (fun acc m => insertByDepth m acc) []

/-- filesystem.apply_moves: validate every path of the batch first (raising
`ValueError` — modelled as the `Except.error` component — before any
filesystem effect), then process the moves deepest-source-first. -/
def apply_moves (root : String) (fs : FS) (moves : List MoveItem) (dry_run : Bool) :
    Except String (List MoveResultItem) × FS :=
  if moves.any (fun m => !(validate_path root m.from_path) || !(validate_path root m.to_path)) then
    (.error "Invalid path in move", fs)
  else
    let out := (sortMovesByDepthDesc moves).foldl (applyStep dry_run) (fs, [])
    (.ok out.2, out.1)

/-- models.TreeNode: a scanned file (with size) or folder (with ordered
children); `relative_path` is the string the scanner built by joining. -/
inductive TreeNode where
  | file (name : String) (relative_path : String) (size : Nat)
  | folder (name : String) (relative_path : String) (children : List TreeNode)
deriving Repr

/-- Stable ascending insertion by byte-wise name order, matching
`sorted(os.scandir(...), key=lambda e: e.name)`. -/
def insertByName (n : Seg) : List Seg → List Seg
  | [] => [n]
  | x :: xs => if lexLe x.toList n.toList then x :: insertByName n xs else n :: x :: xs

/-- The names of the direct children of directory `p`, sorted ascending. -/
def childNamesSorted (fs : FS) (p : Path) : List Seg :=
  let direct : Path → Option Seg := fun q =>
    if q.length = p.length + 1 ∧ p.isPrefixOf q then q.getLast? else none
  let names := fs.files.filterMap (fun e => direct e.1) ++ fs.dirs.filterMap direct
  (names.eraseDups.reverse.foldl (fun acc n => insertByName n acc) [])

/-- Size of the file entry at `p` (0 if absent; only consulted when present). -/
def lookupSize (fs : FS) (p : Path) : Nat :=
  ((fs.files.find? (fun e => e.1 = p)).map (·.2)).getD 0

/-- `_scan_recursive` of filesystem.scan_tree, with fuel bounding recursion
depth: a directory node lists its children sorted by name, each child's
`relative_path` being `os.path.join(parent_relative, name)`, i.e. the parent
string, a slash, and the name (the root is scanned with relative path `.`,
so every descendant string starts with `./`). -/
def scanNode (fs : FS) : Nat → Path → String → String → TreeNode
  | 0, _, rel, name => .folder name rel []
  | fuel + 1, p, rel, name =>
    if fs.isDir p then
      .folder name rel ((childNamesSorted fs p).map
        (fun n => scanNode fs fuel (p ++ [n]) (rel ++ "/" ++ n) n))
    else
      .file name rel (lookupSize fs p)

/-- An upper bound on entry path length, to fuel the scan. -/
def FS.depthBound (fs : FS) : Nat :=
  (fs.files.map (fun e => e.1.length) ++ fs.dirs.map List.length).foldr max 0 + 1

/-- filesystem.scan_tree on the sandbox root (the root node's display name
is immaterial to the planner, which only walks its children). -/
def scan_tree (fs : FS) : TreeNode :=
  scanNode fs fs.depthBound [] "." "root"

/-- organize.get_file_extension: the lowercased `pathlib` suffix without its
dot, or the sentinel `no-extension` when there is no suffix. -/
def get_file_extension (file_path : String) : String :=
  let ext := (pathSuffix file_path.toList).map Char.toLower
  if ext ≠ [] then (ext.drop 1).asString else "no-extension"

mutual

/-- organize.organize_by_file_type's `process_node`: a file not already in
its extension bucket yields one move into `<base>/<ext>/<name>`; a non-empty
folder recurses unless the extension-folder heuristic recognizes it. -/
def processNode : TreeNode → String → List MoveItem
  | .file name rel _, base_path =>
    let ext := get_file_extension name
    let target_path := if base_path = "." then ext ++ "/" ++ name
                       else base_path ++ "/" ++ ext ++ "/" ++ name
    let current_dir := if rel ≠ name then (dirnameChars rel.toList).asString else "."
    let target_dir := (dirnameChars target_path.toList).asString
    if current_dir ≠ target_dir then [⟨rel, target_path⟩] else []
  | .folder name rel children, _ =>
    if children.isEmpty then []
    else
      let current_ext := get_file_extension name
      let is_extension_folder :=
        name = current_ext ∧ name ≠ "no-extension" ∧ name.length ≤ 10
      if is_extension_folder then []
      else processChildren children rel

/-- The planner's in-order traversal of a folder's children. -/
def processChildren : List TreeNode → String → List MoveItem
  | [], _ => []
  | c :: cs, base => processNode c base ++ processChildren cs base

end

/-- organize.organize_by_file_type: scan the root, then plan over the root's
children with base path `.`. -/
def organize_by_file_type (fs : FS) : List MoveItem :=
  match scan_tree fs with
  | .file _ _ _ => []
  | .folder _ _ children => processChildren children "."

/-- `is_empty_folder`'s negation at path level: the directory has at least
one direct child entry. -/
def dirHasEntries (fs : FS) (d : Path) : Bool :=
  fs.files.any (fun e => e.1 ≠ [] ∧ e.1.dropLast = d) ||
  fs.dirs.any (fun q => q ≠ [] ∧ q.dropLast = d)

/-- filesystem.remove_folder_if_empty: never removes the root (`.`); removes
the directory when it exists, is a directory, and has zero entries.  Returns
the new store and whether a removal happened. -/
def removeFolderIfEmpty (fs : FS) (rel : String) : FS × Bool :=
  if rel = "." then (fs, false)
  else
    let d := segsOf rel
    if !(fs.pathExists d) || !(fs.isDir d) then (fs, false)
    else if !(dirHasEntries fs d) then
      ({ fs with dirs := fs.dirs.filter (· ≠ d) }, true)
    else (fs, false)

/-- Stable descending insertion by `pruneDepth`, matching
`sorted(folder_paths, key=get_depth, reverse=True)`. -/
def insertByPruneDepth (p : String) : List String → List String
  | [] => [p]
  | x :: xs => if pruneDepth p ≤ pruneDepth x then x :: insertByPruneDepth p xs
               else p :: x :: xs

/-- The deepest-first processing order of the listed folders. -/
def sortPruneDesc (ps : List String) : List String :=
  ps.foldl (fun acc p => insertByPruneDepth p acc) []

/-- The loop of remove_empty_folders over the sorted folder list.  A path
other than `.` that fails `validate_path` makes `get_absolute_path` raise,
aborting the remaining iterations (the caller swallows the exception, so
removals already performed persist and the removed-list is lost). -/
def pruneGo (root : String) : FS → List String → List String → FS × List String
  | fs, removed, [] => (fs, removed)
  | fs, removed, p :: rest =>
    if p ≠ "." ∧ validate_path root p = false then (fs, [])
    else
      let out := removeFolderIfEmpty fs p
      pruneGo root out.1 (if out.2 then removed ++ [p] else removed) rest

/-- filesystem.remove_empty_folders in its `folder_paths`-given branch (the
only branch the undo endpoint reaches, and only with a non-empty list):
check exactly the listed folders, deepest first, removing each one that is
currently empty. -/
def remove_empty_folders (root : String) (fs : FS) (folder_paths : List String) :
    FS × List String :=
  pruneGo root fs [] (sortPruneDesc folder_paths)

/-- The in-memory server state of main.py: the sandbox content and
`move_history`.  Python appends and pops batches at the end of its list;
the model keeps the most recent batch at the head. -/
structure ServerState where
  fs : FS
  history : List (List MoveItem)
deriving DecidableEq, Repr

/-- main.apply_file_moves lines 186-190: the items re-recorded for undo are
exactly the results with status `moved` or `moved_fallback`, in result
order. -/
def successfulItemsOf (rs : List MoveResultItem) : List MoveItem :=
  (rs.filter (fun r => r.status = "moved" || r.status = "moved_fallback")).map
    (fun r => ⟨r.from_path, r.to_path⟩)

/-- main.apply_file_moves (the `/apply-moves` endpoint): run apply_moves,
and — only when not a dry run and at least one item succeeded — push the
successful items onto the history. -/
def apply_file_moves (root : String) (st : ServerState) (moves : List MoveItem)
    (dry_run : Bool) : ServerState × Except String (List MoveResultItem) :=
  match apply_moves root st.fs moves dry_run with
  | (.error e, fs) => (⟨fs, st.history⟩, .error e)
  | (.ok rs, fs) =>
    let succ := successfulItemsOf rs
    (⟨fs, if dry_run = false ∧ succ ≠ [] then succ :: st.history else st.history⟩, .ok rs)

/-- Outcome of the `/undo` endpoint: 404 on empty history; a 500 from a
`ValueError` escaping apply_moves (history stays popped); a 500 when some
reversed item errored (the popped batch is pushed back); or success carrying
the reversed list and the pruned folders. -/
inductive UndoOutcome where
  | noHistory
  | applyError (msg : String)
  | undoFailed (failedCount : Nat)
  | success (reversed_moves : List MoveItem) (removed : List String)
deriving DecidableEq, Repr

/-- The distinct parent folders of the recorded batch's `to_path`s
(main.py lines 268-275): for every `to_path` containing a slash, the part
before the last slash, when non-empty, enters the check set.  Python
iterates the set in unspecified order before the depth sort; the model
keeps first-encounter order (removal decisions are made deepest-first and
are unaffected by the order of equal-depth entries). -/
def undoParentFolders (last_moves : List MoveItem) : List String :=
  (last_moves.filterMap (fun m =>
    if m.to_path.toList.contains '/' then
      let fp := (beforeLastSlash m.to_path.toList).asString
      if fp ≠ "" then some fp else none
    else none)).foldl (fun acc x => if acc.contains x then acc else acc ++ [x]) []

/-- main.undo_last_moves (the `/undo` endpoint): pop the most recent batch,
apply the swapped moves for real, push the batch back if any item errored
(skips are tolerated), and otherwise prune the now-empty parent folders of
the original destinations, swallowing pruning errors. -/
def undo_last_moves (root : String) (st : ServerState) : ServerState × UndoOutcome :=
  match st.history with
  | [] => (st, .noHistory)
  | last_moves :: rest =>
    let reversed := last_moves.map (fun m => ⟨m.to_path, m.from_path⟩)
    match apply_moves root st.fs reversed false with
    | (.error e, fs) => (⟨fs, rest⟩, .applyError e)
    | (.ok rs, fs) =>
      let failed := rs.filter (fun r => r.status = "error")
      if failed ≠ [] then
        (⟨fs, last_moves :: rest⟩, .undoFailed failed.length)
      else
        let parents := undoParentFolders last_moves
        let pruned := if parents ≠ [] then remove_empty_folders root fs parents
                      else (fs, [])
        (⟨pruned.1, rest⟩, .success reversed pruned.2)

/-- The spec's notion of a `..` path segment: `..` is one of the
slash-separated components. -/
def hasDotDotSegment (s : String) : Bool :=
  (splitCharsOn '/' s.toList).contains ['.', '.']

/-- The path string starts with `/`. -/
def startsWithSlash (s : String) : Bool :=
  s.toList.take 1 = ['/']

/-- A canonical path segment: non-empty, not `.`, no slash, no `..`
substring. -/
def canonicalSeg (g : List Char) : Bool :=
  g ≠ [] && g ≠ ['.'] && decide ('/' ∉ g) && !(containsDD g)

/-- A canonical relative path string: every slash-separated component is a
canonical segment (so the string is the plain `/`-join of its segments). -/
def canonicalPath (s : String) : Bool :=
  (splitCharsOn '/' s.toList).all canonicalSeg

/-- Well-formedness of the modelled store, true of any store scanned from a
real directory tree: file paths are non-empty, never simultaneously
directories, and all their proper ancestors are directories; directory
entries are distinct. -/
def WFFS (fs : FS) : Prop :=
  (∀ e ∈ fs.files, e.1 ≠ [] ∧ fs.dirs.contains e.1 = false ∧
    ∀ q ∈ prefixesOf e.1, q ≠ e.1 → fs.dirs.contains q = true) ∧
  fs.dirs.Nodup

/-- One move of an independent batch: canonical path strings, an existing
file source, a fresh destination, and no existing file anywhere on the
destination's path chain. -/
def MoveOK (fs : FS) (m : MoveItem) : Prop :=
  canonicalPath m.from_path = true ∧ canonicalPath m.to_path = true ∧
  fs.isFile (segsOf m.from_path) = true ∧
  fs.pathExists (segsOf m.to_path) = false ∧
  ∀ p ∈ prefixesOf (segsOf m.to_path), fs.isFile p = false

/-- An independent move batch: every move is `MoveOK`, sources are distinct,
and no destination is a prefix of (in particular equal to) another. -/
def BatchOK (fs : FS) (ms : List MoveItem) : Prop :=
  (∀ m ∈ ms, MoveOK fs m) ∧
  ms.Pairwise (fun m m' => segsOf m.from_path ≠ segsOf m'.from_path) ∧
  ms.Pairwise (fun m m' =>
    (segsOf m.to_path).isPrefixOf (segsOf m'.to_path) = false ∧
    (segsOf m'.to_path).isPrefixOf (segsOf m.to_path) = false)

instance (fs : FS) : Decidable (WFFS fs) := by
  unfold WFFS
  infer_instance

instance (fs : FS) (m : MoveItem) : Decidable (MoveOK fs m) := by
  unfold MoveOK
  infer_instance

instance (fs : FS) (ms : List MoveItem) : Decidable (BatchOK fs ms) := by
  unfold BatchOK
  infer_instance

/-- The path an original file entry has once the moves in `done` have been
executed: re-keyed to the destination of the (unique) move whose source it
was, untouched otherwise. -/
def fwdFile (done : List MoveItem) (e : Path × Nat) : Path × Nat :=
  match done.find? (fun m => segsOf m.from_path = e.1) with
  | some m => (segsOf m.to_path, e.2)
  | none => e

/-- Directory existence after executing the moves in `done`: the original
directories plus every non-empty prefix of a destination's parent chain. -/
def midDirsMem (fs : FS) (done : List MoveItem) (q : Path) : Prop :=
  fs.isDir q = true ∨ (q ≠ [] ∧ ∃ m ∈ done, q <+: (segsOf m.to_path).dropLast)

theorem splitCharsOn_ne_nil (c : Char) (l : List Char) : splitCharsOn c l ≠ [] := by
  induction l with
  | nil => simp [splitCharsOn]
  | cons a rest ih =>
    simp only [splitCharsOn]
    split
    · simp
    · split <;> simp

theorem isPrefix_of_splitCharsOn_head {c : Char} :
    ∀ {l g : List Char} {gs : List (List Char)}, splitCharsOn c l = g :: gs → g <+: l := by
  intro l
  induction l with
  | nil =>
    intro g gs h
    simp only [splitCharsOn] at h
    cases h
    exact List.nil_prefix
  | cons a rest ih =>
    intro g gs h
    simp only [splitCharsOn] at h
    cases hrest : splitCharsOn c rest with
    | nil => exact absurd hrest (splitCharsOn_ne_nil c rest)
    | cons g' gs' =>
      rw [hrest] at h
      by_cases hac : a = c
      · simp only [hac, if_pos rfl] at h
        cases h
        exact List.nil_prefix
      · simp only [if_neg hac] at h
        cases h
        obtain ⟨t, ht⟩ := ih hrest
        exact ⟨t, by simp [← ht]⟩

theorem isInfix_of_mem_splitCharsOn {c : Char} :
    ∀ {l g : List Char}, g ∈ splitCharsOn c l → g <:+: l := by
  intro l
  induction l with
  | nil =>
    intro g h
    simp only [splitCharsOn, List.mem_singleton] at h
    exact h ▸ List.nil_infix
  | cons a rest ih =>
    intro g h
    simp only [splitCharsOn] at h
    cases hrest : splitCharsOn c rest with
    | nil => exact absurd hrest (splitCharsOn_ne_nil c rest)
    | cons g' gs' =>
      rw [hrest] at h
      by_cases hac : a = c
      · simp only [hac, if_pos rfl] at h
        rcases List.mem_cons.mp h with hg | hg
        · exact hg ▸ List.nil_infix
        · exact ((ih (hrest ▸ hg)).trans (List.infix_cons (List.infix_refl rest)))
      · simp only [if_neg hac] at h
        rcases List.mem_cons.mp h with hg | hg
        · subst hg
          obtain ⟨t, ht⟩ := isPrefix_of_splitCharsOn_head hrest
          exact ⟨[], t, by simp [← ht]⟩
        · exact ((ih (hrest ▸ List.mem_cons_of_mem g' hg)).trans
            (List.infix_cons (List.infix_refl rest)))

theorem containsDD_append_right (l₁ l₂ : List Char) (h : containsDD l₂ = true) :
    containsDD (l₁ ++ l₂) = true := by
  induction l₁ with
  | nil => simpa using h
  | cons a l₁' ih =>
    cases hm : l₁' ++ l₂ with
    | nil =>
      rcases List.append_eq_nil.mp hm with ⟨_, h2⟩
      rw [h2] at h
      simp [containsDD] at h
    | cons b rest =>
      rw [hm] at ih
      simp only [List.cons_append, hm, containsDD, ih, Bool.or_true]

theorem containsDD_of_ddot_infix {l : List Char} (h : ['.', '.'] <:+: l) :
    containsDD l = true := by
  obtain ⟨s, t, hst⟩ := h
  have : containsDD (['.', '.'] ++ t) = true := by simp [containsDD]
  calc containsDD l = containsDD (s ++ (['.', '.'] ++ t)) := by rw [← hst]; simp
    _ = true := containsDD_append_right s _ this

theorem containsDD_of_hasDotDotSegment {s : String} (h : hasDotDotSegment s = true) :
    containsDD s.toList = true := by
  have hmem : ['.', '.'] ∈ splitCharsOn '/' s.toList := by
    have := h
    simp only [hasDotDotSegment] at this
    exact List.mem_of_elem_eq_true this
  exact containsDD_of_ddot_infix (isInfix_of_mem_splitCharsOn hmem)

theorem validate_path_false_of_dd (root : String) {s : String}
    (h : containsDD s.toList = true) : validate_path root s = false := by
  have h' : containsDD s.data = true := h
  simp [validate_path, h']

theorem validate_path_false_of_slash (root : String) {s : String}
    (h : startsWithSlash s = true) : validate_path root s = false := by
  have h' : s.data.take 1 = ['/'] := by simpa [startsWithSlash] using h
  simp [validate_path, h']

theorem apply_moves_error_of_invalid (root : String) (fs : FS) (ms : List MoveItem)
    (dry : Bool)
    (h : ∃ m ∈ ms, validate_path root m.from_path = false ∨
      validate_path root m.to_path = false) :
    apply_moves root fs ms dry = (.error "Invalid path in move", fs) := by
  obtain ⟨m, hm, hval⟩ := h
  have hany : ms.any
      (fun m => !(validate_path root m.from_path) || !(validate_path root m.to_path)) = true :=
    List.any_eq_true.mpr ⟨m, hm, by rcases hval with h | h <;> simp [h]⟩
  simp [apply_moves, hany]

/-- C1: whenever some move of the batch has a `fromPath` or `toPath` with a
`..` segment or a leading `/`, `validate_path` is false on that path and the
whole `apply_moves` call fails with the invalid-path error, returning the
filesystem unchanged and producing no per-item results. -/
theorem pathsandbox_rejects_traversal_and_apply_fails_fast
    (root : String) (fs : FS) (ms : List MoveItem) (dry : Bool)
    (h : ∃ m ∈ ms, hasDotDotSegment m.from_path = true ∨ startsWithSlash m.from_path = true ∨
      hasDotDotSegment m.to_path = true ∨ startsWithSlash m.to_path = true) :
    (∀ s : String, (hasDotDotSegment s = true ∨ startsWithSlash s = true) →
      validate_path root s = false) ∧
    apply_moves root fs ms dry = (.error "Invalid path in move", fs) := by
  have hval : ∀ s : String, (hasDotDotSegment s = true ∨ startsWithSlash s = true) →
      validate_path root s = false := by
    intro s hs
    rcases hs with hs | hs
    · exact validate_path_false_of_dd root (containsDD_of_hasDotDotSegment hs)
    · exact validate_path_false_of_slash root hs
  refine ⟨hval, apply_moves_error_of_invalid root fs ms dry ?_⟩
  obtain ⟨m, hm, hcase⟩ := h
  refine ⟨m, hm, ?_⟩
  rcases hcase with hc | hc | hc | hc
  · exact Or.inl (hval _ (Or.inl hc))
  · exact Or.inl (hval _ (Or.inr hc))
  · exact Or.inr (hval _ (Or.inl hc))
  · exact Or.inr (hval _ (Or.inr hc))

/-- Witness for C1 at the spec's own Scenario E input `../etc/passwd`. -/
theorem pathsandbox_rejects_traversal_witness :
    validate_path "/r" "../etc/passwd" = false ∧
    apply_moves "/r" ⟨[], []⟩ [⟨"../etc/passwd", "x"⟩] false =
      (.error "Invalid path in move", ⟨[], []⟩) := by
  have h := pathsandbox_rejects_traversal_and_apply_fails_fast "/r" ⟨[], []⟩
    [⟨"../etc/passwd", "x"⟩] false
    ⟨⟨"../etc/passwd", "x"⟩, by simp, Or.inl (by decide)⟩
  exact ⟨h.1 _ (Or.inl (by decide)), h.2⟩

/-- C10: `validate_path` is false for every relative path containing the
two-character substring `..` anywhere — even inside a single file name that
forms no `..` segment — and `apply_moves` rejects any batch mentioning such
a path, leaving the filesystem untouched. -/
theorem validate_rejects_any_dotdot_substring (root : String) :
    (∀ s : String, containsDD s.toList = true → validate_path root s = false) ∧
    (∀ (fs : FS) (ms : List MoveItem) (dry : Bool),
      (∃ m ∈ ms, containsDD m.from_path.toList = true ∨
        containsDD m.to_path.toList = true) →
      apply_moves root fs ms dry = (.error "Invalid path in move", fs)) := by
  refine ⟨fun s h => validate_path_false_of_dd root h, ?_⟩
  intro fs ms dry ⟨m, hm, hc⟩
  refine apply_moves_error_of_invalid root fs ms dry ⟨m, hm, ?_⟩
  rcases hc with hc | hc
  · exact Or.inl (validate_path_false_of_dd root hc)
  · exact Or.inr (validate_path_false_of_dd root hc)

/-- Witness for C10 at `a..b.txt`, a name with a `..` substring but no `..`
segment and no root escape. -/
theorem validate_rejects_any_dotdot_substring_witness :
    validate_path "/r" "a..b.txt" = false ∧
    apply_moves "/r" ⟨[(["a..b.txt"], 1)], []⟩ [⟨"a..b.txt", "x"⟩] false =
      (.error "Invalid path in move", ⟨[(["a..b.txt"], 1)], []⟩) := by
  have h := validate_rejects_any_dotdot_substring "/r"
  exact ⟨h.1 "a..b.txt" (by decide),
    h.2 ⟨[(["a..b.txt"], 1)], []⟩ [⟨"a..b.txt", "x"⟩] false
      ⟨⟨"a..b.txt", "x"⟩, by simp, Or.inl (by decide)⟩⟩

/-- C3 (divergence): on a root containing only `file1.txt`, applying the
planner's own output and planning again does not return the empty list — the
file already bucketed under `txt/` is re-planned into `txt/txt/`, because
`is_extension_folder` can never hold (a dotless folder name's extension is
the sentinel, never the name itself). -/
theorem organize_not_idempotent_after_apply :
    organize_by_file_type ⟨[(["file1.txt"], 1)], []⟩ =
      [⟨"./file1.txt", "txt/file1.txt"⟩] ∧
    organize_by_file_type
        ((apply_moves "/r" ⟨[(["file1.txt"], 1)], []⟩
          (organize_by_file_type ⟨[(["file1.txt"], 1)], []⟩) false).2) =
      [⟨"./txt/file1.txt", "./txt/txt/file1.txt"⟩] ∧
    organize_by_file_type
        ((apply_moves "/r" ⟨[(["file1.txt"], 1)], []⟩
          (organize_by_file_type ⟨[(["file1.txt"], 1)], []⟩) false).2) ≠ [] := by
  refine ⟨by decide, by decide, by decide⟩

/-- C8 (counterexample): on Scenario B's tree the planner does not return
the claimed literal list — the scanner prefixes every relative path with
`./`, so the `from` fields are `./file1.txt` and `./song.mp3`. -/
theorem plan_scenarioB_counterexample :
    organize_by_file_type ⟨[(["file1.txt"], 8), (["song.mp3"], 4)], []⟩ ≠
      [⟨"file1.txt", "txt/file1.txt"⟩, ⟨"song.mp3", "mp3/song.mp3"⟩] := by
  decide

/-- C8 (amended): Scenario B's plan, in file-encounter order, with the
scanner's actual `./`-prefixed source paths and the claimed destinations. -/
theorem plan_scenarioB_amended :
    organize_by_file_type ⟨[(["file1.txt"], 8), (["song.mp3"], 4)], []⟩ =
      [⟨"./file1.txt", "txt/file1.txt"⟩, ⟨"./song.mp3", "mp3/song.mp3"⟩] := by
  decide

/-- C2 (counterexample): moving `f.txt` to the doubly nested `a/b/f.txt`
and undoing restores the file entries but leaves the created intermediate
directory `a` behind — the undo prunes only the immediate parent `a/b` of
the destination, so the original tree (which had no directories) is not
restored exactly. -/
theorem roundtrip_counterexample :
    (undo_last_moves "/r" (apply_file_moves "/r" ⟨⟨[(["f.txt"], 1)], []⟩, []⟩
        [⟨"f.txt", "a/b/f.txt"⟩] false).1).1.fs =
      ⟨[(["f.txt"], 1)], [["a"]]⟩ ∧
    (undo_last_moves "/r" (apply_file_moves "/r" ⟨⟨[(["f.txt"], 1)], []⟩, []⟩
        [⟨"f.txt", "a/b/f.txt"⟩] false).1).1.fs ≠
      ⟨[(["f.txt"], 1)], []⟩ := by
  refine ⟨by decide, by decide⟩

/-- C4 (counterexample): a move whose destination exists but whose source is
missing is reported as `error` `source_not_found`, not `skip` — the source
check has priority over the destination check. -/
theorem skip_claim_counterexample :
    (⟨[(["b"], 1)], []⟩ : FS).pathExists (segsOf "b") = true ∧
    (apply_moves "/r" ⟨[(["b"], 1)], []⟩ [⟨"a", "b"⟩] false).1 =
      .ok [⟨"a", "b", "error", some "source_not_found"⟩] := by
  refine ⟨by decide, by rfl⟩

/-- C4 (amended): for a move whose source exists and whose destination
already exists at the time it is processed, the executor reports `skip`
with reason `destination_exists` and leaves the filesystem — in particular
the source entry and the existing destination entry — completely unchanged,
in both dry-run and real mode; a single-item batch returns exactly that
result. -/
theorem skip_on_existing_destination (root : String) (dry : Bool) (fs : FS)
    (acc : List MoveResultItem) (m : MoveItem)
    (hsrc : fs.pathExists (segsOf m.from_path) = true)
    (hdst : fs.pathExists (segsOf m.to_path) = true) :
    applyStep dry (fs, acc) m =
      (fs, acc ++ [⟨m.from_path, m.to_path, "skip", some "destination_exists"⟩]) ∧
    (validate_path root m.from_path = true → validate_path root m.to_path = true →
      apply_moves root fs [m] dry =
        (.ok [⟨m.from_path, m.to_path, "skip", some "destination_exists"⟩], fs)) := by
  have hstep : ∀ acc' : List MoveResultItem, applyStep dry (fs, acc') m =
      (fs, acc' ++ [⟨m.from_path, m.to_path, "skip", some "destination_exists"⟩]) := by
    intro acc'
    simp [applyStep, hsrc, hdst]
  refine ⟨hstep acc, fun h1 h2 => ?_⟩
  have hany : ([m] : List MoveItem).any
      (fun m => !(validate_path root m.from_path) || !(validate_path root m.to_path)) = false := by
    simp [h1, h2]
  simp [apply_moves, hany, sortMovesByDepthDesc, insertByDepth, hstep]

/-- Witness for C4's amended claim: both entries exist, the result is the
skip, and the store is untouched. -/
theorem skip_on_existing_destination_witness :
    applyStep false (⟨[(["a"], 1), (["b"], 2)], []⟩, []) ⟨"a", "b"⟩ =
      (⟨[(["a"], 1), (["b"], 2)], []⟩, [⟨"a", "b", "skip", some "destination_exists"⟩]) ∧
    apply_moves "/r" ⟨[(["a"], 1), (["b"], 2)], []⟩ [⟨"a", "b"⟩] false =
      (.ok [⟨"a", "b", "skip", some "destination_exists"⟩], ⟨[(["a"], 1), (["b"], 2)], []⟩) := by
  have h := skip_on_existing_destination "/r" false ⟨[(["a"], 1), (["b"], 2)], []⟩ []
    ⟨"a", "b"⟩ (by decide) (by decide)
  exact ⟨h.1, h.2 (by decide) (by decide)⟩

/-- The filesystem after one apply_moves iteration, as a function of the
store alone (the loop threads no other state). -/
def stepFS (dry : Bool) (fs : FS) (m : MoveItem) : FS :=
  if !(fs.pathExists (segsOf m.from_path)) then fs
  else if fs.pathExists (segsOf m.to_path) then fs
  else if dry then fs
  else if (prefixesOf (segsOf m.to_path).dropLast).any (fun q => fs.isFile q) then fs
  else (fs.makedirs (segsOf m.to_path).dropLast).rename
    (segsOf m.from_path) (segsOf m.to_path)

/-- The result one apply_moves iteration appends, as a function of the
store alone. -/
def stepResult (dry : Bool) (fs : FS) (m : MoveItem) : MoveResultItem :=
  if !(fs.pathExists (segsOf m.from_path)) then
    ⟨m.from_path, m.to_path, "error", some "source_not_found"⟩
  else if fs.pathExists (segsOf m.to_path) then
    ⟨m.from_path, m.to_path, "skip", some "destination_exists"⟩
  else if dry then ⟨m.from_path, m.to_path, "dry_ok", none⟩
  else if (prefixesOf (segsOf m.to_path).dropLast).any (fun q => fs.isFile q) then
    ⟨m.from_path, m.to_path, "error", some "makedirs_failed"⟩
  else ⟨m.from_path, m.to_path, "moved", none⟩

theorem applyStep_eq (dry : Bool) (fs : FS) (acc : List MoveResultItem) (m : MoveItem) :
    applyStep dry (fs, acc) m = (stepFS dry fs m, acc ++ [stepResult dry fs m]) := by
  cases h1 : fs.pathExists (segsOf m.from_path)
  · simp [applyStep, stepFS, stepResult, h1]
  · cases h2 : fs.pathExists (segsOf m.to_path)
    · cases dry
      · cases h3 : (prefixesOf (segsOf m.to_path).dropLast).any (fun q => fs.isFile q)
        · simp [applyStep, stepFS, stepResult, h1, h2, h3]
        · simp [applyStep, stepFS, stepResult, h1, h2, h3]
      · simp [applyStep, stepFS, stepResult, h1, h2]
    · simp [applyStep, stepFS, stepResult, h1, h2]

theorem stepResult_from_path (dry : Bool) (fs : FS) (m : MoveItem) :
    (stepResult dry fs m).from_path = m.from_path := by
  unfold stepResult
  repeat' split
  all_goals rfl

theorem stepResult_to_path (dry : Bool) (fs : FS) (m : MoveItem) :
    (stepResult dry fs m).to_path = m.to_path := by
  unfold stepResult
  repeat' split
  all_goals rfl

theorem applyFold_map_fromTo (dry : Bool) :
    ∀ (ls : List MoveItem) (fs : FS) (acc : List MoveResultItem),
      ((ls.foldl (applyStep dry) (fs, acc)).2).map (fun r => (r.from_path, r.to_path)) =
        acc.map (fun r => (r.from_path, r.to_path)) ++
          ls.map (fun m => (m.from_path, m.to_path)) := by
  intro ls
  induction ls with
  | nil => intro fs acc; simp
  | cons m ls ih =>
    intro fs acc
    simp only [List.foldl_cons, applyStep_eq]
    rw [ih]
    simp [stepResult_from_path, stepResult_to_path]

theorem insertByDepth_perm (m : MoveItem) (l : List MoveItem) :
    (insertByDepth m l).Perm (m :: l) := by
  induction l with
  | nil => simp [insertByDepth]
  | cons x xs ih =>
    simp only [insertByDepth]
    split
    · exact (ih.cons x).trans (List.Perm.swap m x xs)
    · exact List.Perm.refl _

theorem sortMoves_fold_perm :
    ∀ (ms acc : List MoveItem),
      (ms.foldl (fun acc m => insertByDepth m acc) acc).Perm (ms ++ acc) := by
  intro ms
  induction ms with
  | nil => intro acc; simp
  | cons m ms ih =>
    intro acc
    simp only [List.foldl_cons]
    refine (ih (insertByDepth m acc)).trans ?_
    have h2 : (ms ++ insertByDepth m acc).Perm (ms ++ (m :: acc)) :=
      List.Perm.append_left ms (insertByDepth_perm m acc)
    exact h2.trans List.perm_middle

theorem sortMoves_perm (ms : List MoveItem) : (sortMovesByDepthDesc ms).Perm ms := by
  simpa using sortMoves_fold_perm ms []

theorem insertByDepth_pairwise {l : List MoveItem} (m : MoveItem)
    (h : l.Pairwise (fun a b => get_depth b.from_path ≤ get_depth a.from_path)) :
    (insertByDepth m l).Pairwise
      (fun a b => get_depth b.from_path ≤ get_depth a.from_path) := by
  induction l with
  | nil => simp [insertByDepth]
  | cons x xs ih =>
    rcases List.pairwise_cons.mp h with ⟨hx, hxs⟩
    simp only [insertByDepth]
    split
    · rename_i hle
      refine List.pairwise_cons.mpr ⟨?_, ih hxs⟩
      intro y hy
      have : y ∈ m :: xs := (insertByDepth_perm m xs).mem_iff.mp hy
      rcases List.mem_cons.mp this with hy' | hy'
      · exact hy' ▸ hle
      · exact hx y hy'
    · rename_i hlt
      push_neg at hlt
      refine List.pairwise_cons.mpr ⟨?_, h⟩
      intro y hy
      rcases List.mem_cons.mp hy with hy' | hy'
      · exact hy' ▸ le_of_lt hlt
      · exact le_trans (hx y hy') (le_of_lt hlt)

theorem sortMoves_sorted (ms : List MoveItem) :
    (sortMovesByDepthDesc ms).Pairwise
      (fun a b => get_depth b.from_path ≤ get_depth a.from_path) := by
  suffices h : ∀ acc : List MoveItem,
      acc.Pairwise (fun a b => get_depth b.from_path ≤ get_depth a.from_path) →
      (ms.foldl (fun acc m => insertByDepth m acc) acc).Pairwise
        (fun a b => get_depth b.from_path ≤ get_depth a.from_path) by
    exact h [] (List.Pairwise.nil)
  induction ms with
  | nil => intro acc hacc; simpa using hacc
  | cons m ms ih =>
    intro acc hacc
    simp only [List.foldl_cons]
    exact ih _ (insertByDepth_pairwise m hacc)

/-- C5: within one apply_moves call the moves are processed — and their
results reported — in descending order of the depth of `fromPath` (count of
non-empty `/`-separated segments), over a depth-stable permutation of the
batch; in particular a move of `a/b` (depth 2) is always executed before a
move of `a` (depth 1). -/
theorem apply_processes_deepest_first (root : String) (fs : FS) (ms : List MoveItem)
    (dry : Bool) (rs : List MoveResultItem) (fs' : FS)
    (h : apply_moves root fs ms dry = (.ok rs, fs')) :
    rs.Pairwise (fun a b => get_depth b.from_path ≤ get_depth a.from_path) ∧
    rs.map (fun r => (r.from_path, r.to_path)) =
      (sortMovesByDepthDesc ms).map (fun m => (m.from_path, m.to_path)) ∧
    (sortMovesByDepthDesc ms).Perm ms := by
  unfold apply_moves at h
  split at h
  · exact absurd (congrArg Prod.fst h) (by simp)
  · have hrs : rs = ((sortMovesByDepthDesc ms).foldl (applyStep dry) (fs, [])).2 := by
      have := congrArg Prod.fst h
      simpa using this.symm
    have hmap : rs.map (fun r => (r.from_path, r.to_path)) =
        (sortMovesByDepthDesc ms).map (fun m => (m.from_path, m.to_path)) := by
      rw [hrs]
      simpa using applyFold_map_fromTo dry (sortMovesByDepthDesc ms) fs []
    refine ⟨?_, hmap, sortMoves_perm ms⟩
    have hdep : rs.map (fun r => get_depth r.from_path) =
        (sortMovesByDepthDesc ms).map (fun m => get_depth m.from_path) := by
      have := congrArg (List.map (fun p : String × String => get_depth p.1)) hmap
      simpa [List.map_map, Function.comp] using this
    have hsorted := sortMoves_sorted ms
    have h1 : ((sortMovesByDepthDesc ms).map (fun m => get_depth m.from_path)).Pairwise
        (fun a b => b ≤ a) := by
      exact List.Pairwise.map _ (fun a b hab => hab) hsorted
    rw [← hdep] at h1
    exact (List.pairwise_map).mp h1

/-- Witness for C5: the batch moving both `a` and `a/b` has `a/b` processed
and reported first. -/
theorem apply_processes_deepest_first_witness :
    ([⟨"a/b", "y", "error", some "source_not_found"⟩,
      ⟨"a", "x", "dry_ok", none⟩] : List MoveResultItem).Pairwise
        (fun a b => get_depth b.from_path ≤ get_depth a.from_path) ∧
    ([⟨"a/b", "y", "error", some "source_not_found"⟩,
      ⟨"a", "x", "dry_ok", none⟩] : List MoveResultItem).map
        (fun r => (r.from_path, r.to_path)) =
      (sortMovesByDepthDesc [⟨"a", "x"⟩, ⟨"a/b", "y"⟩]).map
        (fun m => (m.from_path, m.to_path)) ∧
    (sortMovesByDepthDesc [⟨"a", "x"⟩, ⟨"a/b", "y"⟩]).Perm [⟨"a", "x"⟩, ⟨"a/b", "y"⟩] :=
  apply_processes_deepest_first "/r" ⟨[(["a"], 1)], []⟩ [⟨"a", "x"⟩, ⟨"a/b", "y"⟩]
    true _ _ (by rfl)

theorem stepFS_dry (fs : FS) (m : MoveItem) : stepFS true fs m = fs := by
  simp [stepFS]

theorem dryFold (ls : List MoveItem) :
    ∀ (fs : FS) (acc : List MoveResultItem),
      ls.foldl (applyStep true) (fs, acc) = (fs, acc ++ ls.map (stepResult true fs)) := by
  induction ls with
  | nil => intro fs acc; simp
  | cons m ls ih =>
    intro fs acc
    simp only [List.foldl_cons, applyStep_eq, stepFS_dry]
    rw [ih]
    simp

/-- C6: a dry-run apply_moves call never changes the filesystem (whatever
the batch, even an invalid one), and every reported item whose source exists
and whose destination does not exist in that unchanged filesystem has status
`dry_ok`. -/
theorem dry_run_is_pure_and_reports_dry_ok (root : String) (fs : FS)
    (ms : List MoveItem) :
    (apply_moves root fs ms true).2 = fs ∧
    ∀ rs, (apply_moves root fs ms true).1 = .ok rs →
      ∀ r ∈ rs, fs.pathExists (segsOf r.from_path) = true →
        fs.pathExists (segsOf r.to_path) = false → r.status = "dry_ok" := by
  unfold apply_moves
  split
  · refine ⟨rfl, ?_⟩
    intro rs hrs
    exact absurd hrs (by simp)
  · have hf := dryFold (sortMovesByDepthDesc ms) fs []
    constructor
    · simp [hf]
    · intro rs hrs r hr hsrc hdst
      have hrs' : rs = (sortMovesByDepthDesc ms).map (stepResult true fs) := by
        rw [hf] at hrs
        simpa using hrs.symm
      obtain ⟨m', hm', hr'⟩ := List.mem_map.mp (hrs' ▸ hr)
      rw [← hr'] at hsrc hdst ⊢
      rw [stepResult_from_path] at hsrc
      rw [stepResult_to_path] at hdst
      unfold stepResult
      simp [hsrc, hdst]

/-- Witness for C6 on a one-file store: the store is unchanged and the
single result is `dry_ok`. -/
theorem dry_run_is_pure_witness :
    (apply_moves "/r" ⟨[(["a"], 1)], []⟩ [⟨"a", "b"⟩] true).2 = ⟨[(["a"], 1)], []⟩ ∧
    (⟨"a", "b", "dry_ok", none⟩ : MoveResultItem).status = "dry_ok" := by
  have h := dry_run_is_pure_and_reports_dry_ok "/r" ⟨[(["a"], 1)], []⟩ [⟨"a", "b"⟩]
  exact ⟨h.1, h.2 [⟨"a", "b", "dry_ok", none⟩] (by rfl) ⟨"a", "b", "dry_ok", none⟩
    (by simp) (by decide) (by decide)⟩

/-- C9: whenever apply_file_moves returns results, the batch pushed onto the
undo history is exactly the `moved`/`moved_fallback` results (in result
order, as from/to items), and nothing is pushed on a dry run or when no
item succeeded. -/
theorem recorded_batch_is_exactly_successful_results (root : String)
    (st : ServerState) (ms : List MoveItem) (dry : Bool) (rs : List MoveResultItem)
    (h : (apply_file_moves root st ms dry).2 = .ok rs) :
    (apply_file_moves root st ms dry).1.history =
      if dry = true ∨ successfulItemsOf rs = [] then st.history
      else successfulItemsOf rs :: st.history := by
  unfold apply_file_moves at h ⊢
  cases happ : apply_moves root st.fs ms dry with
  | mk e fs' =>
    cases e with
    | error msg =>
      rw [happ] at h
      simp at h
    | ok rs' =>
      rw [happ] at h
      have hrs : rs' = rs := by simpa using h
      subst hrs
      cases dry with
      | true => simp
      | false =>
        by_cases hsucc : successfulItemsOf rs' = []
        · simp [hsucc]
        · simp [hsucc]

/-- Witness for C9: a real single successful move is recorded as the
one-item batch. -/
theorem recorded_batch_witness :
    (apply_file_moves "/r" ⟨⟨[(["a"], 1)], []⟩, []⟩ [⟨"a", "b"⟩] false).1.history =
      if (false = true ∨ successfulItemsOf [⟨"a", "b", "moved", none⟩] = []) then
        ([] : List (List MoveItem))
      else successfulItemsOf [⟨"a", "b", "moved", none⟩] :: [] :=
  recorded_batch_is_exactly_successful_results "/r" ⟨⟨[(["a"], 1)], []⟩, []⟩
    [⟨"a", "b"⟩] false [⟨"a", "b", "moved", none⟩] (by rfl)

/-- C7: undo on an empty stack fails with no-history and leaves everything
unchanged; when the reversed batch's application contains an `error` result
the popped batch is pushed back (stack exactly as before, retry possible)
and the undo reports failure; when no result is an `error` — skips included
— the undo succeeds and consumes the batch. -/
theorem undo_pop_failure_and_skip_tolerance (root : String) (st : ServerState) :
    (st.history = [] → undo_last_moves root st = (st, .noHistory)) ∧
    (∀ b rest rs fs', st.history = b :: rest →
      apply_moves root st.fs (b.map (fun m => ⟨m.to_path, m.from_path⟩)) false =
        (.ok rs, fs') →
      ((∃ r ∈ rs, r.status = "error") →
        (undo_last_moves root st).1.history = st.history ∧
        ∃ n, (undo_last_moves root st).2 = .undoFailed n) ∧
      ((∀ r ∈ rs, r.status ≠ "error") →
        (undo_last_moves root st).1.history = rest ∧
        ∃ removed, (undo_last_moves root st).2 =
          .success (b.map (fun m => ⟨m.to_path, m.from_path⟩)) removed)) := by
  constructor
  · intro h
    unfold undo_last_moves
    rw [h]
  · intro b rest rs fs' hhist happ
    unfold undo_last_moves
    rw [hhist]
    simp only [happ]
    constructor
    · rintro ⟨r, hr, hstat⟩
      have hmem : r ∈ rs.filter (fun r => r.status = "error") :=
        List.mem_filter.mpr ⟨hr, by simp [hstat]⟩
      have herr : rs.filter (fun r => r.status = "error") ≠ [] := by
        intro hnil
        rw [hnil] at hmem
        exact List.not_mem_nil r hmem
      rw [if_pos herr]
      exact ⟨rfl, _, rfl⟩
    · intro hnone
      have herr : rs.filter (fun r => r.status = "error") = [] :=
        List.filter_eq_nil_iff.mpr (fun r hr => by simpa using hnone r hr)
      rw [if_neg (fun hh => hh herr)]
      exact ⟨rfl, _, rfl⟩

/-- Witness for C7: a recorded batch whose reversal hits a missing source is
pushed back, and the outcome reports failure. -/
theorem undo_pop_failure_witness :
    (undo_last_moves "/r" ⟨⟨[], []⟩, [[⟨"a", "b"⟩]]⟩).1.history = [[⟨"a", "b"⟩]] ∧
    ∃ n, (undo_last_moves "/r" ⟨⟨[], []⟩, [[⟨"a", "b"⟩]]⟩).2 = .undoFailed n := by
  have h := (undo_pop_failure_and_skip_tolerance "/r" ⟨⟨[], []⟩, [[⟨"a", "b"⟩]]⟩).2
    [⟨"a", "b"⟩] [] [⟨"b", "a", "error", some "source_not_found"⟩] ⟨[], []⟩
    rfl (by rfl)
  exact h.1 ⟨⟨"b", "a", "error", some "source_not_found"⟩, by simp, rfl⟩

/-- Rejoin groups with the separator: the left inverse of `splitCharsOn`. -/
def unsplitOn (c : Char) : List (List Char) → List Char
  | [] => []
  | [g] => g
  | g :: gs => g ++ c :: unsplitOn c gs

theorem unsplitOn_cons_cons (c : Char) (g g2 : List Char) (gs : List (List Char)) :
    unsplitOn c (g :: g2 :: gs) = g ++ c :: unsplitOn c (g2 :: gs) := rfl

theorem unsplit_splitCharsOn (c : Char) : ∀ l : List Char,
    unsplitOn c (splitCharsOn c l) = l := by
  intro l
  induction l with
  | nil => rfl
  | cons a rest ih =>
    simp only [splitCharsOn]
    cases hrest : splitCharsOn c rest with
    | nil => exact absurd hrest (splitCharsOn_ne_nil c rest)
    | cons g gs =>
      rw [hrest] at ih
      dsimp only
      by_cases hac : a = c
      · have hcond : (if a = c then ([] : List Char) :: g :: gs else (a :: g) :: gs) =
            [] :: g :: gs := if_pos hac
        rw [hcond, unsplitOn_cons_cons, List.nil_append, ih, hac]
      · have hcond : (if a = c then ([] : List Char) :: g :: gs else (a :: g) :: gs) =
            (a :: g) :: gs := if_neg hac
        rw [hcond]
        cases gs with
        | nil =>
          simp only [unsplitOn] at ih ⊢
          rw [ih]
        | cons g2 gs2 =>
          rw [unsplitOn_cons_cons] at ih
          rw [unsplitOn_cons_cons, List.cons_append, ih]

theorem canonicalSeg_spec {g : List Char} (h : canonicalSeg g = true) :
    g ≠ [] ∧ g ≠ ['.'] ∧ ¬ ('/' ∈ g) ∧ containsDD g = false := by
  simp only [canonicalSeg, Bool.and_eq_true, decide_eq_true_eq, Bool.not_eq_true'] at h
  exact ⟨h.1.1.1, h.1.1.2, h.1.2, h.2⟩

theorem containsDD_slash_cons (r : List Char) (hr : containsDD r = false) :
    containsDD ('/' :: r) = false := by
  cases r with
  | nil => rfl
  | cons b rest => simp [containsDD, hr]

theorem containsDD_append_slash : ∀ (g r : List Char), containsDD g = false →
    containsDD r = false → containsDD (g ++ '/' :: r) = false := by
  intro g
  induction g with
  | nil => intro r _ hr; simpa using containsDD_slash_cons r hr
  | cons a g' ih =>
    intro r hg hr
    have hg' : containsDD g' = false := by
      cases g' with
      | nil => rfl
      | cons b rest =>
        simp only [containsDD, Bool.or_eq_false_iff] at hg
        exact hg.2
    have htail : containsDD (g' ++ '/' :: r) = false := ih r hg' hr
    cases g' with
    | nil =>
      simp only [List.nil_append] at htail
      simp only [List.cons_append, List.nil_append, containsDD, htail, Bool.or_false]
      simp
    | cons b rest =>
      have hpair : (a = '.' && b = '.') = false := by
        simp only [containsDD, Bool.or_eq_false_iff] at hg
        exact hg.1
      simp only [List.cons_append, containsDD, Bool.or_eq_false_iff]
      exact ⟨hpair, by simpa using htail⟩

theorem unsplit_no_dd : ∀ gs : List (List Char),
    (∀ g ∈ gs, containsDD g = false) → containsDD (unsplitOn '/' gs) = false := by
  intro gs
  induction gs with
  | nil => intro _; rfl
  | cons g gs2 ih =>
    intro h
    cases gs2 with
    | nil => exact h g (by simp)
    | cons g2 gs3 =>
      rw [unsplitOn_cons_cons]
      exact containsDD_append_slash g _ (h g (by simp))
        (ih (fun g' hg' => h g' (List.mem_cons_of_mem g hg')))

theorem slash_mem_unsplit_two (g2 : List Char) (g3 : List Char) (gs3 : List (List Char)) :
    '/' ∈ unsplitOn '/' (g2 :: g3 :: gs3) := by
  rw [unsplitOn_cons_cons]
  exact List.mem_append.mpr (Or.inr (List.mem_cons_self _ _))

theorem splitCharsOn_no_slash : ∀ g : List Char, ¬ ('/' ∈ g) →
    splitCharsOn '/' g = [g] := by
  intro g
  induction g with
  | nil => intro _; rfl
  | cons a g' ih =>
    intro h
    have ha : a ≠ '/' := fun haeq => h (haeq ▸ List.mem_cons_self a g')
    have hg' : ¬ ('/' ∈ g') := fun hm => h (List.mem_cons_of_mem a hm)
    simp only [splitCharsOn, ih hg', if_neg ha]

theorem splitCharsOn_append_slash : ∀ (g r : List Char), ¬ ('/' ∈ g) →
    splitCharsOn '/' (g ++ '/' :: r) = g :: splitCharsOn '/' r := by
  intro g
  induction g with
  | nil =>
    intro r _
    simp only [List.nil_append, splitCharsOn]
    cases hr : splitCharsOn '/' r with
    | nil => exact absurd hr (splitCharsOn_ne_nil '/' r)
    | cons gr grs => simp
  | cons a g' ih =>
    intro r h
    have ha : a ≠ '/' := fun haeq => h (haeq ▸ List.mem_cons_self a g')
    have hg' : ¬ ('/' ∈ g') := fun hm => h (List.mem_cons_of_mem a hm)
    rw [List.cons_append]
    simp only [splitCharsOn]
    rw [ih r hg']
    simp [ha]

theorem split_unsplit : ∀ gs : List (List Char), gs ≠ [] →
    (∀ g ∈ gs, ¬ ('/' ∈ g)) → splitCharsOn '/' (unsplitOn '/' gs) = gs := by
  intro gs
  induction gs with
  | nil => intro h _; exact absurd rfl h
  | cons g gs2 ih =>
    intro _ h
    cases gs2 with
    | nil => exact splitCharsOn_no_slash g (h g (by simp))
    | cons g2 gs3 =>
      rw [unsplitOn_cons_cons, splitCharsOn_append_slash g _ (h g (by simp))]
      rw [ih (by simp) (fun g' hg' => h g' (List.mem_cons_of_mem g hg'))]

theorem contains_iff_mem {α : Type} [BEq α] [LawfulBEq α] {l : List α} {x : α} :
    l.contains x = true ↔ x ∈ l :=
  ⟨List.mem_of_elem_eq_true, List.elem_eq_true_of_mem⟩

theorem canonicalPath_groups {s : String} (h : canonicalPath s = true) :
    ∀ g ∈ splitCharsOn '/' s.toList, canonicalSeg g = true := by
  simpa [canonicalPath, List.all_eq_true] using h

theorem canon_no_dd {s : String} (h : canonicalPath s = true) :
    containsDD s.toList = false := by
  have hs : s.toList = unsplitOn '/' (splitCharsOn '/' s.toList) :=
    (unsplit_splitCharsOn '/' s.toList).symm
  rw [hs]
  exact unsplit_no_dd _ (fun g hg => (canonicalSeg_spec (canonicalPath_groups h g hg)).2.2.2)

theorem canon_not_slash_head {s : String} (h : canonicalPath s = true) :
    ¬ (s.toList.take 1 = ['/']) := by
  intro hTake
  have hs : s.toList = unsplitOn '/' (splitCharsOn '/' s.toList) :=
    (unsplit_splitCharsOn '/' s.toList).symm
  cases hsp : splitCharsOn '/' s.toList with
  | nil => exact splitCharsOn_ne_nil '/' s.toList hsp
  | cons g gs =>
    obtain ⟨hne, _, hnoslash, _⟩ :=
      canonicalSeg_spec (canonicalPath_groups h g (hsp ▸ List.mem_cons_self g gs))
    cases g with
    | nil => exact hne rfl
    | cons x g' =>
      have hx : x ≠ '/' := fun hxe => hnoslash (hxe ▸ List.mem_cons_self x g')
      rw [hs, hsp] at hTake
      cases gs with
      | nil =>
        simp only [unsplitOn] at hTake
        exact hx (by simpa using hTake)
      | cons g2 gs2 =>
        rw [unsplitOn_cons_cons, List.cons_append] at hTake
        exact hx (by simpa using hTake)

theorem isPrefixOf_foldl (segs : List Seg) :
    ∀ (acc pre : List Char), pre.isPrefixOf acc = true →
      pre.isPrefixOf (segs.foldl (fun a sg => a ++ '/' :: sg.toList) acc) = true := by
  induction segs with
  | nil => intro acc pre hp; simpa using hp
  | cons sg segs ih =>
    intro acc pre hp
    simp only [List.foldl_cons]
    refine ih _ pre ?_
    exact List.isPrefixOf_iff_prefix.mpr
      ((List.isPrefixOf_iff_prefix.mp hp).trans (List.prefix_append acc _))

theorem canon_validate (root : String) {s : String} (h : canonicalPath s = true) :
    validate_path root s = true := by
  have h1 : containsDD s.toList = false := canon_no_dd h
  have h2 : ¬ (s.toList.take 1 = ['/']) := canon_not_slash_head h
  have hcond : (containsDD s.toList || decide (s.toList.take 1 = ['/'])) = false := by
    simp only [Bool.or_eq_false_iff, decide_eq_false_iff_not]
    exact ⟨h1, h2⟩
  unfold validate_path abspathJoin
  rw [hcond]
  simpa using isPrefixOf_foldl (segsOf s) root.toList root.toList
    (List.isPrefixOf_iff_prefix.mpr (List.prefix_refl _))

theorem canon_segsOf {s : String} (h : canonicalPath s = true) :
    segsOf s = (splitCharsOn '/' s.toList).map List.asString := by
  unfold segsOf
  congr 1
  apply List.filter_eq_self.mpr
  intro g hg
  obtain ⟨h1, h2, _, _⟩ := canonicalSeg_spec (canonicalPath_groups h g hg)
  simp [h1, h2]

theorem segsOf_canon_ne_nil {s : String} (h : canonicalPath s = true) :
    segsOf s ≠ [] := by
  rw [canon_segsOf h]
  intro hc
  exact splitCharsOn_ne_nil '/' s.toList (by simpa using hc)

theorem canon_slash_iff {s : String} (h : canonicalPath s = true) :
    '/' ∈ s.toList ↔ 2 ≤ (splitCharsOn '/' s.toList).length := by
  have hs : s.toList = unsplitOn '/' (splitCharsOn '/' s.toList) :=
    (unsplit_splitCharsOn '/' s.toList).symm
  constructor
  · intro hmem
    by_contra hlt
    push_neg at hlt
    cases hsp : splitCharsOn '/' s.toList with
    | nil => exact splitCharsOn_ne_nil '/' s.toList hsp
    | cons g gs =>
      cases gs with
      | nil =>
        obtain ⟨_, _, hnoslash, _⟩ :=
          canonicalSeg_spec (canonicalPath_groups h g (hsp ▸ List.mem_cons_self g []))
        rw [hs, hsp] at hmem
        exact hnoslash (by simpa [unsplitOn] using hmem)
      | cons g2 gs2 =>
        rw [hsp] at hlt
        simp at hlt
        omega
  · intro hlen
    cases hsp : splitCharsOn '/' s.toList with
    | nil => exact absurd hsp (splitCharsOn_ne_nil '/' s.toList)
    | cons g gs =>
      cases gs with
      | nil => rw [hsp] at hlen; simp at hlen
      | cons g2 gs2 =>
        rw [hs, hsp]
        exact List.mem_append.mpr (Or.inr (List.mem_cons_self _ _))

theorem canon_contains_slash_iff {s : String} (h : canonicalPath s = true) :
    s.toList.contains '/' = true ↔ 2 ≤ (segsOf s).length := by
  rw [contains_iff_mem, canon_slash_iff h, canon_segsOf h, List.length_map]

theorem beforeLastSlash_append (g r : List Char) (hg : ¬ ('/' ∈ g)) :
    beforeLastSlash (g ++ '/' :: r) =
      if '/' ∈ r then g ++ '/' :: beforeLastSlash r else g := by
  induction g with
  | nil =>
    simp only [List.nil_append, beforeLastSlash]
    split
    · rfl
    · simp
  | cons a g' ih =>
    have ha : a ≠ '/' := fun haeq => hg (haeq ▸ List.mem_cons_self a g')
    have hg' : ¬ ('/' ∈ g') := fun hm => hg (List.mem_cons_of_mem a hm)
    have hmem : '/' ∈ g' ++ '/' :: r := List.mem_append.mpr (Or.inr (List.mem_cons_self _ _))
    rw [List.cons_append]
    simp only [beforeLastSlash, if_pos hmem, ih hg']
    split <;> simp

theorem unsplit_dropLast : ∀ gs : List (List Char), (∀ g ∈ gs, ¬ ('/' ∈ g)) →
    2 ≤ gs.length →
    beforeLastSlash (unsplitOn '/' gs) = unsplitOn '/' gs.dropLast := by
  intro gs
  induction gs with
  | nil => intro _ h; simp at h
  | cons g gs2 ih =>
    intro h hlen
    cases gs2 with
    | nil => simp at hlen
    | cons g2 gs3 =>
      rw [unsplitOn_cons_cons, beforeLastSlash_append g _ (h g (by simp))]
      cases gs3 with
      | nil =>
        have hg2 : ¬ ('/' ∈ unsplitOn '/' [g2]) := by
          simpa [unsplitOn] using h g2 (by simp)
        rw [if_neg hg2]
        rfl
      | cons g3 gs4 =>
        rw [if_pos (slash_mem_unsplit_two g2 g3 gs4)]
        rw [ih (fun g' hg' => h g' (List.mem_cons_of_mem g hg')) (by simp)]
        have hne : (g2 :: g3 :: gs4).dropLast ≠ [] := by
          simp [List.dropLast_cons₂]
        rw [show (g :: g2 :: g3 :: gs4).dropLast = g :: (g2 :: g3 :: gs4).dropLast from rfl]
        cases hdl : (g2 :: g3 :: gs4).dropLast with
        | nil => exact absurd hdl hne
        | cons d ds => rw [unsplitOn_cons_cons]

/-- The string the undo endpoint derives for a canonical destination of at
least two segments: `rsplit('/', 1)[0]` is canonical, resolves to the
destination's parent path, and is neither `.` nor empty. -/
theorem parentStr_spec {s : String} (h : canonicalPath s = true)
    (hlen : 2 ≤ (splitCharsOn '/' s.toList).length) :
    canonicalPath ((beforeLastSlash s.toList).asString) = true ∧
    segsOf ((beforeLastSlash s.toList).asString) = (segsOf s).dropLast ∧
    ((beforeLastSlash s.toList).asString) ≠ "." ∧
    ((beforeLastSlash s.toList).asString) ≠ "" := by
  have hs : s.toList = unsplitOn '/' (splitCharsOn '/' s.toList) :=
    (unsplit_splitCharsOn '/' s.toList).symm
  have hnoslash : ∀ g ∈ splitCharsOn '/' s.toList, ¬ ('/' ∈ g) :=
    fun g hg => (canonicalSeg_spec (canonicalPath_groups h g hg)).2.2.1
  have hbefore : beforeLastSlash s.toList =
      unsplitOn '/' (splitCharsOn '/' s.toList).dropLast := by
    conv_lhs => rw [hs]
    exact unsplit_dropLast _ hnoslash hlen
  have hdlne : (splitCharsOn '/' s.toList).dropLast ≠ [] := by
    intro hc
    have h1 := congrArg List.length hc
    rw [List.length_dropLast] at h1
    simp only [List.length_nil] at h1
    omega
  have hdlsub : ∀ g ∈ (splitCharsOn '/' s.toList).dropLast,
      g ∈ splitCharsOn '/' s.toList :=
    fun g hg => (List.dropLast_prefix _).subset hg
  have hlist : ((beforeLastSlash s.toList).asString).toList =
      unsplitOn '/' (splitCharsOn '/' s.toList).dropLast := by
    rw [show ((beforeLastSlash s.toList).asString).toList = beforeLastSlash s.toList from rfl,
      hbefore]
  have hsplitp : splitCharsOn '/' ((beforeLastSlash s.toList).asString).toList =
      (splitCharsOn '/' s.toList).dropLast := by
    rw [hlist]
    exact split_unsplit _ hdlne (fun g hg => hnoslash g (hdlsub g hg))
  have hcanonp : canonicalPath ((beforeLastSlash s.toList).asString) = true := by
    unfold canonicalPath
    rw [hsplitp]
    exact List.all_eq_true.mpr
      (fun g hg => canonicalPath_groups h g (hdlsub g hg))
  refine ⟨hcanonp, ?_, ?_, ?_⟩
  · rw [canon_segsOf hcanonp, hsplitp, canon_segsOf h, List.map_dropLast]
  · intro heq
    have hl : unsplitOn '/' (splitCharsOn '/' s.toList).dropLast = ['.'] := by
      rw [← hlist, heq]
      rfl
    cases hdl : (splitCharsOn '/' s.toList).dropLast with
    | nil => exact hdlne hdl
    | cons g gs =>
      obtain ⟨hne, hnd, _, _⟩ :=
        canonicalSeg_spec (canonicalPath_groups h g (hdlsub g (hdl ▸ List.mem_cons_self g gs)))
      rw [hdl] at hl
      cases gs with
      | nil => exact hnd (by simpa [unsplitOn] using hl)
      | cons g2 gs2 =>
        have hmem := slash_mem_unsplit_two g g2 gs2
        rw [hl] at hmem
        simp at hmem
  · intro heq
    have hl : unsplitOn '/' (splitCharsOn '/' s.toList).dropLast = [] := by
      rw [← hlist, heq]
      rfl
    cases hdl : (splitCharsOn '/' s.toList).dropLast with
    | nil => exact hdlne hdl
    | cons g gs =>
      obtain ⟨hne, _, _, _⟩ :=
        canonicalSeg_spec (canonicalPath_groups h g (hdlsub g (hdl ▸ List.mem_cons_self g gs)))
      rw [hdl] at hl
      cases gs with
      | nil => exact hne (by simpa [unsplitOn] using hl)
      | cons g2 gs2 =>
        rw [unsplitOn_cons_cons] at hl
        rcases List.append_eq_nil.mp hl with ⟨_, h2⟩
        simp at h2

theorem isFile_iff {fs : FS} {p : Path} :
    fs.isFile p = true ↔ ∃ e ∈ fs.files, e.1 = p := by
  simp [FS.isFile, List.any_eq_true]

theorem isDir_iff {fs : FS} {p : Path} :
    fs.isDir p = true ↔ p = [] ∨ p ∈ fs.dirs := by
  simp [FS.isDir, contains_iff_mem]

theorem pathExists_iff {fs : FS} {p : Path} :
    fs.pathExists p = true ↔ fs.isFile p = true ∨ fs.isDir p = true := by
  simp [FS.pathExists]

theorem pathExists_eq_false {fs : FS} {p : Path} :
    fs.pathExists p = false ↔ fs.isFile p = false ∧ fs.isDir p = false := by
  simp [FS.pathExists]

theorem mem_prefixesOf {q d : Path} : q ∈ prefixesOf d ↔ (q ≠ [] ∧ q <+: d) := by
  constructor
  · intro hq
    obtain ⟨i, hi, hqi⟩ := List.mem_map.mp hq
    have hi' : i < d.length := List.mem_range.mp hi
    subst hqi
    refine ⟨?_, List.take_prefix _ _⟩
    intro hc
    have h0 := congrArg List.length hc
    rw [List.length_take] at h0
    simp only [List.length_nil] at h0
    omega
  · rintro ⟨hne, hpre⟩
    have htake := List.prefix_iff_eq_take.mp hpre
    have hlen : q.length ≤ d.length := hpre.length_le
    have hpos : 1 ≤ q.length := List.length_pos.mpr hne
    refine List.mem_map.mpr ⟨q.length - 1, List.mem_range.mpr (by omega), ?_⟩
    rw [show q.length - 1 + 1 = q.length from by omega]
    exact htake.symm

theorem prefixesOf_nodup (d : Path) : (prefixesOf d).Nodup := by
  refine List.Nodup.map_on ?_ (List.nodup_range d.length)
  intro i hi j hj hij
  have hi' : i < d.length := List.mem_range.mp hi
  have hj' : j < d.length := List.mem_range.mp hj
  have := congrArg List.length hij
  simp only [List.length_take] at this
  omega

theorem step_spec (fs : FS) (all : List MoveItem) (hB : BatchOK fs all)
    (done : List MoveItem) (m : MoveItem) (rest : List MoveItem)
    (hperm : (done ++ m :: rest).Perm all)
    (fs' : FS)
    (hfiles : fs'.files = fs.files.map (fwdFile done))
    (hdirs : ∀ q, fs'.isDir q = true ↔ midDirsMem fs done q) :
    stepResult false fs' m = ⟨m.from_path, m.to_path, "moved", none⟩ ∧
    (stepFS false fs' m).files = fs.files.map (fwdFile (done ++ [m])) ∧
    (∀ q, (stepFS false fs' m).isDir q = true ↔ midDirsMem fs (done ++ [m]) q) ∧
    (stepFS false fs' m).dirs =
      fs'.dirs ++ (prefixesOf (segsOf m.to_path).dropLast).filter
        (fun q => !(fs'.isDir q)) := by
  have hmAll : m ∈ all := hperm.subset (List.mem_append_right _ (List.mem_cons_self _ _))
  obtain ⟨hcanF, hcanT, hsrc, hdstFree, hchain⟩ := hB.1 m hmAll
  have hpwFrom : (done ++ m :: rest).Pairwise
      (fun a b => segsOf a.from_path ≠ segsOf b.from_path) :=
    (List.Perm.pairwise_iff (fun h e => h e.symm) hperm).mpr hB.2.1
  have hpwTo : (done ++ m :: rest).Pairwise (fun a b =>
      (segsOf a.to_path).isPrefixOf (segsOf b.to_path) = false ∧
      (segsOf b.to_path).isPrefixOf (segsOf a.to_path) = false) :=
    (List.Perm.pairwise_iff (fun h => ⟨h.2, h.1⟩) hperm).mpr hB.2.2
  have hcrossFrom : ∀ m' ∈ done, segsOf m'.from_path ≠ segsOf m.from_path :=
    fun m' hm' => (List.pairwise_append.mp hpwFrom).2.2 m' hm' m (List.mem_cons_self _ _)
  have hcrossTo : ∀ m' ∈ done,
      (segsOf m'.to_path).isPrefixOf (segsOf m.to_path) = false ∧
      (segsOf m.to_path).isPrefixOf (segsOf m'.to_path) = false :=
    fun m' hm' => (List.pairwise_append.mp hpwTo).2.2 m' hm' m (List.mem_cons_self _ _)
  have hdoneOK : ∀ m' ∈ done, MoveOK fs m' :=
    fun m' hm' => hB.1 m' (hperm.subset (List.mem_append_left _ hm'))
  have hNoFileChain : ∀ q, q ≠ [] → q <+: segsOf m.to_path → fs'.isFile q = false := by
    intro q hqne hqpre
    by_contra hq
    have hq' : fs'.isFile q = true := by
      cases hqq : fs'.isFile q
      · exact absurd hqq hq
      · rfl
    obtain ⟨e', he', hpe⟩ := isFile_iff.mp hq'
    rw [hfiles] at he'
    obtain ⟨e, he, hfe⟩ := List.mem_map.mp he'
    cases hfind : done.find? (fun m' => segsOf m'.from_path = e.1) with
    | none =>
      have he1 : e.1 = q := by
        rw [← hpe, ← hfe]
        simp [fwdFile, hfind]
      have hfsfile : fs.isFile q = true := isFile_iff.mpr ⟨e, he, he1⟩
      have hcq := hchain q (mem_prefixesOf.mpr ⟨hqne, hqpre⟩)
      rw [hcq] at hfsfile
      exact absurd hfsfile (by simp)
    | some m' =>
      have hm'mem := List.mem_of_find?_eq_some hfind
      have heq : segsOf m'.to_path = q := by
        rw [← hpe, ← hfe]
        simp [fwdFile, hfind]
      have hpref : (segsOf m'.to_path).isPrefixOf (segsOf m.to_path) = true :=
        List.isPrefixOf_iff_prefix.mpr (heq ▸ hqpre)
      rw [(hcrossTo m' hm'mem).1] at hpref
      exact absurd hpref (by simp)
  have hsrc' : fs'.isFile (segsOf m.from_path) = true := by
    obtain ⟨e, he, hpe⟩ := isFile_iff.mp hsrc
    refine isFile_iff.mpr ⟨fwdFile done e, ?_, ?_⟩
    · rw [hfiles]
      exact List.mem_map_of_mem _ he
    · cases hfind : done.find? (fun m' => segsOf m'.from_path = e.1) with
      | none =>
        rw [hpe] at hfind
        simp [fwdFile, hfind, hpe]
      | some m' =>
        have hm'mem := List.mem_of_find?_eq_some hfind
        have hps : segsOf m'.from_path = e.1 := by simpa using List.find?_some hfind
        exact absurd (hps.trans hpe) (hcrossFrom m' hm'mem)
  have hsrcEx : fs'.pathExists (segsOf m.from_path) = true :=
    pathExists_iff.mpr (Or.inl hsrc')
  have hdstFile : fs'.isFile (segsOf m.to_path) = false :=
    hNoFileChain _ (segsOf_canon_ne_nil hcanT) (List.prefix_refl _)
  have hdstDir : fs'.isDir (segsOf m.to_path) = false := by
    cases hc : fs'.isDir (segsOf m.to_path)
    · rfl
    · exfalso
      rcases (hdirs _).mp hc with horig | ⟨_, m', hm', hpre⟩
      · have hx : fs.pathExists (segsOf m.to_path) = true := pathExists_iff.mpr (Or.inr horig)
        rw [hdstFree] at hx
        exact absurd hx (by simp)
      · have hp : (segsOf m.to_path).isPrefixOf (segsOf m'.to_path) = true :=
          List.isPrefixOf_iff_prefix.mpr (hpre.trans (List.dropLast_prefix _))
        rw [(hcrossTo m' hm').2] at hp
        exact absurd hp (by simp)
  have hdstEx : fs'.pathExists (segsOf m.to_path) = false :=
    pathExists_eq_false.mpr ⟨hdstFile, hdstDir⟩
  have hchainAny : ((prefixesOf (segsOf m.to_path).dropLast).any
      (fun q => fs'.isFile q)) = false := by
    apply List.any_eq_false.mpr
    intro q hq
    obtain ⟨hqne, hqpre⟩ := mem_prefixesOf.mp hq
    rw [hNoFileChain q hqne (hqpre.trans (List.dropLast_prefix _))]
    simp
  have hres : stepResult false fs' m = ⟨m.from_path, m.to_path, "moved", none⟩ := by
    simp [stepResult, hsrcEx, hdstEx, hchainAny]
  have hfs2 : stepFS false fs' m = (fs'.makedirs (segsOf m.to_path).dropLast).rename
      (segsOf m.from_path) (segsOf m.to_path) := by
    simp [stepFS, hsrcEx, hdstEx, hchainAny]
  have hfileBranch : (fs'.makedirs (segsOf m.to_path).dropLast).isFile
      (segsOf m.from_path) = true := hsrc'
  have hfiles2 : (stepFS false fs' m).files = fs.files.map (fwdFile (done ++ [m])) := by
    rw [hfs2]
    unfold FS.rename
    rw [if_pos hfileBranch]
    show fs'.files.map (fun e =>
      if e.1 = segsOf m.from_path then (segsOf m.to_path, e.2) else e) = _
    rw [hfiles, List.map_map]
    apply List.map_congr_left
    intro e he
    simp only [Function.comp]
    cases hfind : done.find? (fun m' => segsOf m'.from_path = e.1) with
    | none =>
      by_cases he1 : e.1 = segsOf m.from_path
      · rw [he1] at hfind
        simp [fwdFile, hfind, List.find?_append, he1, List.find?]
      · have hns : ¬ (segsOf m.from_path = e.1) := fun hc => he1 hc.symm
        simp [fwdFile, hfind, List.find?_append, he1, List.find?, hns]
    | some m' =>
      have hm'mem := List.mem_of_find?_eq_some hfind
      have hTm'neF : ¬ (segsOf m'.to_path = segsOf m.from_path) := by
        intro hc
        have hfree : fs.pathExists (segsOf m'.to_path) = false :=
          (hdoneOK m' hm'mem).2.2.2.1
        rw [hc] at hfree
        have hex : fs.pathExists (segsOf m.from_path) = true :=
          pathExists_iff.mpr (Or.inl hsrc)
        rw [hfree] at hex
        exact absurd hex (by simp)
      simp [fwdFile, hfind, List.find?_append, hTm'neF]
  have hdirs2list : (stepFS false fs' m).dirs =
      fs'.dirs ++ (prefixesOf (segsOf m.to_path).dropLast).filter
        (fun q => !(fs'.isDir q)) := by
    rw [hfs2]
    unfold FS.rename
    rw [if_pos hfileBranch]
    rfl
  refine ⟨hres, hfiles2, ?_, hdirs2list⟩
  intro q
  rw [isDir_iff, hdirs2list]
  constructor
  · rintro (hq | hq)
    · exact Or.inl (isDir_iff.mpr (Or.inl hq))
    · rcases List.mem_append.mp hq with hq | hq
      · rcases (hdirs q).mp (isDir_iff.mpr (Or.inr hq)) with horig | ⟨hne, m', hm', hpre⟩
        · exact Or.inl horig
        · exact Or.inr ⟨hne, m', List.mem_append_left _ hm', hpre⟩
      · obtain ⟨hqpre, _⟩ := List.mem_filter.mp hq
        obtain ⟨hqne, hqp⟩ := mem_prefixesOf.mp hqpre
        exact Or.inr ⟨hqne, m, List.mem_append_right _ (List.mem_singleton.mpr rfl), hqp⟩
  · intro hmid
    have hlift : fs'.isDir q = true → q = [] ∨
        q ∈ fs'.dirs ++ (prefixesOf (segsOf m.to_path).dropLast).filter
          (fun q => !(fs'.isDir q)) := by
      intro hq
      rcases isDir_iff.mp hq with hq | hq
      · exact Or.inl hq
      · exact Or.inr (List.mem_append_left _ hq)
    rcases hmid with horig | ⟨hne, m', hm', hpre⟩
    · exact hlift ((hdirs q).mpr (Or.inl horig))
    · rcases List.mem_append.mp hm' with hm' | hm'
      · exact hlift ((hdirs q).mpr (Or.inr ⟨hne, m', hm', hpre⟩))
      · have hmm : m' = m := List.mem_singleton.mp hm'
        subst hmm
        cases hq : fs'.isDir q with
        | true => exact hlift hq
        | false =>
          refine Or.inr (List.mem_append_right _ (List.mem_filter.mpr ⟨?_, ?_⟩))
          · exact mem_prefixesOf.mpr ⟨hne, hpre⟩
          · simp [hq]

theorem step_nodup (fs' : FS) (d : Path) (hnd : fs'.dirs.Nodup) :
    (fs'.dirs ++ (prefixesOf d).filter (fun q => !(fs'.isDir q))).Nodup := by
  refine List.Nodup.append hnd (List.Nodup.filter _ (prefixesOf_nodup _)) ?_
  intro q hq1 hq2
  obtain ⟨_, hq2'⟩ := List.mem_filter.mp hq2
  have hdir : fs'.isDir q = true := isDir_iff.mpr (Or.inr hq1)
  rw [hdir] at hq2'
  exact absurd hq2' (by simp)

theorem applyFold_spec (fs : FS) (all : List MoveItem) (hB : BatchOK fs all) :
    ∀ (todo done : List MoveItem) (fs' : FS) (acc : List MoveResultItem),
      (done ++ todo).Perm all →
      fs'.files = fs.files.map (fwdFile done) →
      (∀ q, fs'.isDir q = true ↔ midDirsMem fs done q) →
      fs'.dirs.Nodup →
      (todo.foldl (applyStep false) (fs', acc)).2 =
        acc ++ todo.map (fun m => ⟨m.from_path, m.to_path, "moved", none⟩) ∧
      ((todo.foldl (applyStep false) (fs', acc)).1).files =
        fs.files.map (fwdFile (done ++ todo)) ∧
      (∀ q, ((todo.foldl (applyStep false) (fs', acc)).1).isDir q = true ↔
        midDirsMem fs (done ++ todo) q) ∧
      ((todo.foldl (applyStep false) (fs', acc)).1).dirs.Nodup := by
  intro todo
  induction todo with
  | nil =>
    intro done fs' acc hperm hfiles hdirs hnd
    simp only [List.foldl_nil, List.map_nil, List.append_nil]
    exact ⟨by simp, hfiles, hdirs, hnd⟩
  | cons m todo' ih =>
    intro done fs' acc hperm hfiles hdirs hnd
    obtain ⟨hres, hfiles2, hdirs2, hdlist⟩ :=
      step_spec fs all hB done m todo' hperm fs' hfiles hdirs
    have hnd2 : (stepFS false fs' m).dirs.Nodup := by
      rw [hdlist]
      exact step_nodup fs' _ hnd
    have happend : (done ++ [m]) ++ todo' = done ++ m :: todo' := by simp
    have hperm' : ((done ++ [m]) ++ todo').Perm all := by
      rw [happend]
      exact hperm
    have ihh := ih (done ++ [m]) (stepFS false fs' m)
      (acc ++ [stepResult false fs' m]) hperm' hfiles2 hdirs2 hnd2
    rw [happend] at ihh
    simp only [List.foldl_cons, applyStep_eq]
    refine ⟨?_, ihh.2.1, ihh.2.2.1, ihh.2.2.2⟩
    rw [ihh.1, hres]
    simp

theorem find?_unique {α : Type} {p : α → Bool} :
    ∀ {l : List α} {a : α}, a ∈ l → p a = true →
      (∀ b ∈ l, p b = true → b = a) → l.find? p = some a := by
  intro l
  induction l with
  | nil => intro a ha _ _; cases ha
  | cons x xs ih =>
    intro a ha hpa huniq
    rw [List.find?_cons]
    cases hx : p x with
    | true =>
      have : x = a := huniq x (List.mem_cons_self _ _) hx
      rw [this]
    | false =>
      rcases List.mem_cons.mp ha with hax | haxs
      · rw [hax] at hpa
        rw [hx] at hpa
        cases hpa
      · exact ih haxs hpa (fun b hb hpb => huniq b (List.mem_cons_of_mem _ hb) hpb)

theorem fwdFile_nil (e : Path × Nat) : fwdFile [] e = e := rfl

theorem midDirsMem_nil (fs : FS) (q : Path) :
    midDirsMem fs [] q ↔ fs.isDir q = true := by
  simp [midDirsMem]

/-- On an independent batch, a real apply_moves run reports `moved` for every
item (deepest source first) and produces the store described by `fwdFile`
and `midDirsMem`. -/
theorem apply_moves_indep (root : String) (fs : FS) (ms : List MoveItem)
    (hB : BatchOK fs ms) (hnd : fs.dirs.Nodup) :
    (apply_moves root fs ms false).1 =
      .ok ((sortMovesByDepthDesc ms).map
        (fun m => ⟨m.from_path, m.to_path, "moved", none⟩)) ∧
    ((apply_moves root fs ms false).2).files =
      fs.files.map (fwdFile (sortMovesByDepthDesc ms)) ∧
    (∀ q, ((apply_moves root fs ms false).2).isDir q = true ↔
      midDirsMem fs (sortMovesByDepthDesc ms) q) ∧
    ((apply_moves root fs ms false).2).dirs.Nodup := by
  have hany : (ms.any (fun m => !(validate_path root m.from_path) ||
      !(validate_path root m.to_path))) = false := by
    apply List.any_eq_false.mpr
    intro m hm
    obtain ⟨hcF, hcT, _, _, _⟩ := hB.1 m hm
    simp [canon_validate root hcF, canon_validate root hcT]
  have hfid : fs.files = fs.files.map (fwdFile []) := by
    have h : fwdFile [] = fun e => e := funext fun e => rfl
    rw [h, List.map_id']
  have hspec := applyFold_spec fs ms hB (sortMovesByDepthDesc ms) [] fs []
    (by simpa using sortMoves_perm ms) hfid
    (fun q => (midDirsMem_nil fs q).symm) hnd
  unfold apply_moves
  rw [hany]
  simp only [Bool.false_eq_true, if_false]
  exact ⟨by rw [hspec.1]; simp, by rw [hspec.2.1]; simp, by
    intro q
    rw [hspec.2.2.1 q]
    simp, hspec.2.2.2⟩

theorem wf_file_not_dir {fs : FS} (hWF : WFFS fs) {p : Path}
    (hf : fs.isFile p = true) : fs.isDir p = false := by
  obtain ⟨e, he, hpe⟩ := isFile_iff.mp hf
  obtain ⟨hne, hnd, _⟩ := hWF.1 e he
  cases hd : fs.isDir p with
  | false => rfl
  | true =>
    exfalso
    rcases isDir_iff.mp hd with hnil | hmem
    · exact hne (hpe.trans hnil)
    · have : fs.dirs.contains e.1 = true := contains_iff_mem.mpr (hpe ▸ hmem)
      rw [hnd] at this
      exact absurd this (by simp)

theorem wf_file_prefix_dir {fs : FS} (hWF : WFFS fs) {p q : Path}
    (hf : fs.isFile p = true) (hq : q <+: p) (hqne : q ≠ []) (hqnep : q ≠ p) :
    q ∈ fs.dirs := by
  obtain ⟨e, he, hpe⟩ := isFile_iff.mp hf
  obtain ⟨_, _, hpar⟩ := hWF.1 e he
  have h1 := hpar q (mem_prefixesOf.mpr ⟨hqne, hpe ▸ hq⟩) (by rw [hpe]; exact hqnep)
  exact contains_iff_mem.mp h1

/-- Reversing an independent batch after it has been applied yields an
independent batch on the post-apply store. -/
theorem undo_batchOK (fs : FS) (hWF : WFFS fs) (ms : List MoveItem)
    (hB : BatchOK fs ms) (S : List MoveItem) (hSperm : S.Perm ms) (fs1 : FS)
    (hfiles1 : fs1.files = fs.files.map (fwdFile S))
    (hdirs1 : ∀ q, fs1.isDir q = true ↔ midDirsMem fs S q) :
    BatchOK fs1 (S.map (fun m => ⟨m.to_path, m.from_path⟩)) := by
  have hSOK : ∀ m ∈ S, MoveOK fs m := fun m hm => hB.1 m (hSperm.subset hm)
  have hpwFromS : S.Pairwise (fun a b => segsOf a.from_path ≠ segsOf b.from_path) :=
    (List.Perm.pairwise_iff (fun h e => h e.symm) hSperm).mpr hB.2.1
  have hpwToS : S.Pairwise (fun a b =>
      (segsOf a.to_path).isPrefixOf (segsOf b.to_path) = false ∧
      (segsOf b.to_path).isPrefixOf (segsOf a.to_path) = false) :=
    (List.Perm.pairwise_iff (fun h => ⟨h.2, h.1⟩) hSperm).mpr hB.2.2
  have huniqFrom : ∀ m ∈ S, ∀ b ∈ S, segsOf b.from_path = segsOf m.from_path → b = m := by
    intro m hm b hb heq
    by_contra hne
    have hsymm : Symmetric (fun a b : MoveItem =>
        segsOf a.from_path ≠ segsOf b.from_path) := by
      intro x y h e
      exact h e.symm
    exact (hpwFromS.forall hsymm hb hm hne) heq
  have hpwToNe : S.Pairwise (fun a b => segsOf a.to_path ≠ segsOf b.to_path) := by
    refine hpwToS.imp ?_
    intro a b h he
    have hp : (segsOf a.to_path).isPrefixOf (segsOf b.to_path) = true :=
      List.isPrefixOf_iff_prefix.mpr (he ▸ List.prefix_refl _)
    rw [h.1] at hp
    exact absurd hp (by simp)
  have hToNeFrom : ∀ m' ∈ S, ∀ m ∈ S,
      ¬ (segsOf m'.to_path = segsOf m.from_path) := by
    intro m' hm' m hm hc
    have hfree : fs.pathExists (segsOf m'.to_path) = false := (hSOK m' hm').2.2.2.1
    rw [hc] at hfree
    have hex : fs.pathExists (segsOf m.from_path) = true :=
      pathExists_iff.mpr (Or.inl (hSOK m hm).2.2.1)
    rw [hfree] at hex
    exact absurd hex (by simp)
  have hsrcUndo : ∀ m ∈ S, fs1.isFile (segsOf m.to_path) = true := by
    intro m hm
    obtain ⟨e, he, hpe⟩ := isFile_iff.mp (hSOK m hm).2.2.1
    refine isFile_iff.mpr ⟨fwdFile S e,
      by rw [hfiles1]; exact List.mem_map_of_mem _ he, ?_⟩
    have hfind : S.find? (fun m' => segsOf m'.from_path = e.1) = some m := by
      refine find?_unique hm (by simp [hpe]) ?_
      intro b hb hpb
      exact huniqFrom m hm b hb (by simpa [hpe] using hpb)
    simp [fwdFile, hfind]
  have hdstUndo : ∀ m ∈ S, fs1.pathExists (segsOf m.from_path) = false := by
    intro m hm
    refine pathExists_eq_false.mpr ⟨?_, ?_⟩
    · cases hbool : fs1.isFile (segsOf m.from_path) with
      | false => rfl
      | true =>
        exfalso
        obtain ⟨e', he', hpe'⟩ := isFile_iff.mp hbool
        rw [hfiles1] at he'
        obtain ⟨e, he, hfe⟩ := List.mem_map.mp he'
        cases hfind : S.find? (fun m' => segsOf m'.from_path = e.1) with
        | none =>
          have he1 : e.1 = segsOf m.from_path := by
            rw [← hpe', ← hfe]
            simp [fwdFile, hfind]
          have := List.find?_eq_none.mp hfind m hm
          simp [he1] at this
        | some m' =>
          have hm'mem := List.mem_of_find?_eq_some hfind
          have heq : segsOf m'.to_path = segsOf m.from_path := by
            rw [← hpe', ← hfe]
            simp [fwdFile, hfind]
          exact hToNeFrom m' hm'mem m hm heq
    · cases hbool : fs1.isDir (segsOf m.from_path) with
      | false => rfl
      | true =>
        exfalso
        rcases (hdirs1 _).mp hbool with horig | ⟨hne, m', hm', hpre⟩
        · have hfd := wf_file_not_dir hWF (hSOK m hm).2.2.1
          rw [hfd] at horig
          exact absurd horig (by simp)
        · have hfile := (hSOK m' hm').2.2.2.2 (segsOf m.from_path)
            (mem_prefixesOf.mpr ⟨hne, hpre.trans (List.dropLast_prefix _)⟩)
          have hsf := (hSOK m hm).2.2.1
          rw [hfile] at hsf
          exact absurd hsf (by simp)
  have hchainUndo : ∀ m ∈ S, ∀ q ∈ prefixesOf (segsOf m.from_path),
      fs1.isFile q = false := by
    intro m hm q hq
    obtain ⟨hqne, hqpre⟩ := mem_prefixesOf.mp hq
    cases hbool : fs1.isFile q with
    | false => rfl
    | true =>
      exfalso
      obtain ⟨e', he', hpe'⟩ := isFile_iff.mp hbool
      rw [hfiles1] at he'
      obtain ⟨e, he, hfe⟩ := List.mem_map.mp he'
      by_cases hqF : q = segsOf m.from_path
      · cases hfind : S.find? (fun m' => segsOf m'.from_path = e.1) with
        | none =>
          have he1 : e.1 = q := by
            rw [← hpe', ← hfe]
            simp [fwdFile, hfind]
          have hnone := List.find?_eq_none.mp hfind m hm
          simp [he1, hqF] at hnone
        | some m' =>
          have hm'mem := List.mem_of_find?_eq_some hfind
          have heq : segsOf m'.to_path = q := by
            rw [← hpe', ← hfe]
            simp [fwdFile, hfind]
          exact hToNeFrom m' hm'mem m hm (heq.trans hqF)
      · have hqdir : q ∈ fs.dirs :=
          wf_file_prefix_dir hWF (hSOK m hm).2.2.1 hqpre hqne hqF
        cases hfind : S.find? (fun m' => segsOf m'.from_path = e.1) with
        | none =>
          have he1 : e.1 = q := by
            rw [← hpe', ← hfe]
            simp [fwdFile, hfind]
          have hqfile : fs.isFile q = true := isFile_iff.mpr ⟨e, he, he1⟩
          have hnd := wf_file_not_dir hWF hqfile
          have : fs.isDir q = true := isDir_iff.mpr (Or.inr hqdir)
          rw [hnd] at this
          exact absurd this (by simp)
        | some m' =>
          have hm'mem := List.mem_of_find?_eq_some hfind
          have heq : segsOf m'.to_path = q := by
            rw [← hpe', ← hfe]
            simp [fwdFile, hfind]
          have hfree : fs.pathExists (segsOf m'.to_path) = false :=
            (hSOK m' hm'mem).2.2.2.1
          rw [heq] at hfree
          have : fs.pathExists q = true :=
            pathExists_iff.mpr (Or.inr (isDir_iff.mpr (Or.inr hqdir)))
          rw [hfree] at this
          exact absurd this (by simp)
  have hFromNoPrefix : ∀ a ∈ S, ∀ b ∈ S, segsOf a.from_path ≠ segsOf b.from_path →
      (segsOf a.from_path).isPrefixOf (segsOf b.from_path) = false := by
    intro a ha b hb hne
    cases hp : (segsOf a.from_path).isPrefixOf (segsOf b.from_path) with
    | false => rfl
    | true =>
      exfalso
      have hpre : segsOf a.from_path <+: segsOf b.from_path :=
        List.isPrefixOf_iff_prefix.mp hp
      have hadir : segsOf a.from_path ∈ fs.dirs :=
        wf_file_prefix_dir hWF (hSOK b hb).2.2.1 hpre
          (segsOf_canon_ne_nil (hSOK a ha).1) hne
      have hafile := (hSOK a ha).2.2.1
      have hnd := wf_file_not_dir hWF hafile
      have : fs.isDir (segsOf a.from_path) = true := isDir_iff.mpr (Or.inr hadir)
      rw [hnd] at this
      exact absurd this (by simp)
  refine ⟨?_, ?_, ?_⟩
  · intro mr hmr
    obtain ⟨m, hm, hmeq⟩ := List.mem_map.mp hmr
    subst hmeq
    exact ⟨(hSOK m hm).2.1, (hSOK m hm).1, hsrcUndo m hm, hdstUndo m hm,
      fun p hp => hchainUndo m hm p hp⟩
  · exact List.pairwise_map.mpr hpwToNe
  · refine List.pairwise_map.mpr ?_
    refine List.Pairwise.imp_of_mem ?_ hpwFromS
    intro a b ha hb hne
    exact ⟨hFromNoPrefix a ha b hb hne, hFromNoPrefix b hb a ha (fun e => hne e.symm)⟩

theorem removeFolderIfEmpty_files (fs : FS) (p : String) :
    ((removeFolderIfEmpty fs p).1).files = fs.files := by
  unfold removeFolderIfEmpty
  dsimp only
  repeat' split
  all_goals rfl

theorem removeFolderIfEmpty_dirs_subset (fs : FS) (p : String) :
    ∀ q, q ∈ ((removeFolderIfEmpty fs p).1).dirs → q ∈ fs.dirs := by
  intro q
  unfold removeFolderIfEmpty
  dsimp only
  repeat' split
  all_goals intro h
  · exact h
  · exact h
  · exact (List.mem_filter.mp h).1
  · exact h

theorem removeFolderIfEmpty_keeps (fs : FS) (p : String) (q : Path)
    (hq : q ∈ fs.dirs) (hne : segsOf p ≠ q) :
    q ∈ ((removeFolderIfEmpty fs p).1).dirs := by
  unfold removeFolderIfEmpty
  dsimp only
  repeat' split
  · exact hq
  · exact hq
  · refine List.mem_filter.mpr ⟨hq, ?_⟩
    simp only [decide_eq_true_eq]
    intro he
    exact hne he.symm
  · exact hq

theorem pruneGo_files (root : String) :
    ∀ (l : List String) (fs : FS) (removed : List String),
      ((pruneGo root fs removed l).1).files = fs.files := by
  intro l
  induction l with
  | nil => intro fs removed; rfl
  | cons p l' ih =>
    intro fs removed
    unfold pruneGo
    split
    · rfl
    · rw [ih]
      exact removeFolderIfEmpty_files fs p

theorem pruneGo_dirs_subset (root : String) :
    ∀ (l : List String) (fs : FS) (removed : List String) (q : Path),
      q ∈ ((pruneGo root fs removed l).1).dirs → q ∈ fs.dirs := by
  intro l
  induction l with
  | nil => intro fs removed q h; exact h
  | cons p l' ih =>
    intro fs removed q h
    unfold pruneGo at h
    split at h
    · exact h
    · exact removeFolderIfEmpty_dirs_subset fs p q (ih _ _ q h)

theorem pruneGo_keeps (root : String) :
    ∀ (l : List String) (fs : FS) (removed : List String) (q : Path),
      q ∈ fs.dirs → (∀ p ∈ l, segsOf p ≠ q) →
      q ∈ ((pruneGo root fs removed l).1).dirs := by
  intro l
  induction l with
  | nil => intro fs removed q hq _; exact hq
  | cons p l' ih =>
    intro fs removed q hq hl
    unfold pruneGo
    split
    · exact hq
    · exact ih _ _ q (removeFolderIfEmpty_keeps fs p q hq (hl p (List.mem_cons_self _ _)))
        (fun p' hp' => hl p' (List.mem_cons_of_mem _ hp'))

theorem pruneGo_removes (root : String) (F2 : List (Path × Nat)) (D2 : List Path)
    {q : Path}
    (hnochildF : ∀ e ∈ F2, ¬ (e.1 ≠ [] ∧ e.1.dropLast = q))
    (hnochildD : ∀ d ∈ D2, ¬ (d ≠ [] ∧ d.dropLast = q)) :
    ∀ (l : List String) (fsc : FS) (removed : List String),
      fsc.files = F2 → (∀ d ∈ fsc.dirs, d ∈ D2) →
      (∀ p ∈ l, p = "." ∨ validate_path root p = true) →
      (∃ p ∈ l, p ≠ "." ∧ segsOf p = q) →
      q ∉ ((pruneGo root fsc removed l).1).dirs := by
  intro l
  induction l with
  | nil =>
    intro fsc removed _ _ _ hex
    obtain ⟨p, hp, _⟩ := hex
    cases hp
  | cons p0 l' ih =>
    intro fsc removed hF hD hvalid hex
    have hnoabort : ¬ (p0 ≠ "." ∧ validate_path root p0 = false) := by
      rcases hvalid p0 (List.mem_cons_self _ _) with h | h
      · intro hc
        exact hc.1 h
      · intro hc
        rw [h] at hc
        exact absurd hc.2 (by simp)
    unfold pruneGo
    rw [if_neg hnoabort]
    rcases hex with ⟨p, hpmem, hpne, hpeq⟩
    rcases List.mem_cons.mp hpmem with hph | hpt
    · subst hph
      have hqout : q ∉ (removeFolderIfEmpty fsc p).1.dirs := by
        by_cases hdirmem : q ∈ fsc.dirs
        · have hid : fsc.isDir (segsOf p) = true := by
            rw [hpeq]
            exact isDir_iff.mpr (Or.inr hdirmem)
          have hpe : fsc.pathExists (segsOf p) = true :=
            pathExists_iff.mpr (Or.inr hid)
          have hempty : dirHasEntries fsc (segsOf p) = false := by
            rw [hpeq]
            unfold dirHasEntries
            rw [Bool.or_eq_false_iff]
            constructor
            · apply List.any_eq_false.mpr
              intro e he
              rw [hF] at he
              simp only [decide_eq_true_eq, Bool.not_eq_true]
              simpa using hnochildF e he
            · apply List.any_eq_false.mpr
              intro d hd
              simp only [decide_eq_true_eq, Bool.not_eq_true]
              simpa using hnochildD d (hD d hd)
          have hc1 : (!(fsc.pathExists (segsOf p)) || !(fsc.isDir (segsOf p))) = false := by
            simp [hpe, hid]
          have hstep : removeFolderIfEmpty fsc p =
              ({ fsc with dirs := fsc.dirs.filter (· ≠ segsOf p) }, true) := by
            unfold removeFolderIfEmpty
            rw [if_neg hpne]
            dsimp only
            rw [hc1, hempty]
            simp
          rw [hstep]
          intro hmem
          have h2 := (List.mem_filter.mp hmem).2
          simp [hpeq] at h2
        · intro hmem
          exact hdirmem (removeFolderIfEmpty_dirs_subset fsc p q hmem)
      intro hmem
      exact hqout (pruneGo_dirs_subset root l' _ _ q hmem)
    · exact ih (removeFolderIfEmpty fsc p0).1 _
        (by rw [removeFolderIfEmpty_files]; exact hF)
        (fun d hd => hD d (removeFolderIfEmpty_dirs_subset fsc p0 d hd))
        (fun p' hp' => hvalid p' (List.mem_cons_of_mem _ hp'))
        ⟨p, hpt, hpne, hpeq⟩

/-- Applying the reversed moves over the post-apply store re-keys every file
entry back to its original path. -/
theorem roundtrip_files (fs : FS) (ms : List MoveItem) (hB : BatchOK fs ms)
    (S : List MoveItem) (hSperm : S.Perm ms)
    (S2 : List MoveItem) (hS2perm : S2.Perm (S.map (fun m => ⟨m.to_path, m.from_path⟩))) :
    (fs.files.map (fwdFile S)).map (fwdFile S2) = fs.files := by
  have hSOK : ∀ m ∈ S, MoveOK fs m := fun m hm => hB.1 m (hSperm.subset hm)
  have hpwToS : S.Pairwise (fun a b =>
      (segsOf a.to_path).isPrefixOf (segsOf b.to_path) = false ∧
      (segsOf b.to_path).isPrefixOf (segsOf a.to_path) = false) :=
    (List.Perm.pairwise_iff (fun h => ⟨h.2, h.1⟩) hSperm).mpr hB.2.2
  have hpwToNe : S.Pairwise (fun a b => segsOf a.to_path ≠ segsOf b.to_path) := by
    refine hpwToS.imp ?_
    intro a b h he
    have hp : (segsOf a.to_path).isPrefixOf (segsOf b.to_path) = true :=
      List.isPrefixOf_iff_prefix.mpr (he ▸ List.prefix_refl _)
    rw [h.1] at hp
    exact absurd hp (by simp)
  have huniqTo : ∀ m ∈ S, ∀ b ∈ S, segsOf b.to_path = segsOf m.to_path → b = m := by
    intro m hm b hb heq
    by_contra hne
    have hsymm : Symmetric (fun a b : MoveItem =>
        segsOf a.to_path ≠ segsOf b.to_path) := by
      intro x y h e
      exact h e.symm
    exact (hpwToNe.forall hsymm hb hm hne) heq
  rw [List.map_map]
  have hid : fs.files.map (fwdFile S2 ∘ fwdFile S) = fs.files.map (fun e => e) := by
    apply List.map_congr_left
    intro e he
    simp only [Function.comp]
    cases hfind : S.find? (fun m' => segsOf m'.from_path = e.1) with
    | some m =>
      have hmmem := List.mem_of_find?_eq_some hfind
      have hps : segsOf m.from_path = e.1 := by simpa using List.find?_some hfind
      have hval : fwdFile S e = (segsOf m.to_path, e.2) := by
        simp [fwdFile, hfind]
      have hfind2 : S2.find? (fun mr => segsOf mr.from_path = segsOf m.to_path) =
          some ⟨m.to_path, m.from_path⟩ := by
        refine find?_unique ?_ (by simp) ?_
        · exact hS2perm.symm.subset
            (List.mem_map_of_mem (fun m => (⟨m.to_path, m.from_path⟩ : MoveItem)) hmmem)
        · intro b hb hpb
          obtain ⟨m'', hm''mem, hm''eq⟩ := List.mem_map.mp (hS2perm.subset hb)
          subst hm''eq
          have : segsOf m''.to_path = segsOf m.to_path := by simpa using hpb
          rw [huniqTo m hmmem m'' hm''mem this]
      rw [hval]
      simp only [fwdFile, hfind2]
      rw [show segsOf (MoveItem.mk m.to_path m.from_path).to_path =
        segsOf m.from_path from rfl]
      rw [hps]
    | none =>
      have hval : fwdFile S e = e := by simp [fwdFile, hfind]
      rw [hval]
      have hfind2 : S2.find? (fun mr => segsOf mr.from_path = e.1) = none := by
        apply List.find?_eq_none.mpr
        intro b hb
        obtain ⟨m'', hm''mem, hm''eq⟩ := List.mem_map.mp (hS2perm.subset hb)
        subst hm''eq
        simp only [decide_eq_true_eq]
        intro hc
        have hfree : fs.pathExists (segsOf m''.to_path) = false :=
          (hSOK m'' hm''mem).2.2.2.1
        have hfl : fs.isFile e.1 = true := isFile_iff.mpr ⟨e, he, rfl⟩
        rw [hc] at hfree
        have : fs.pathExists e.1 = true := pathExists_iff.mpr (Or.inl hfl)
        rw [hfree] at this
        exact absurd this (by simp)
      simp [fwdFile, hfind2]
  rw [hid, List.map_id']

/-- The reversed batch creates no directory: every prefix of a reversal
destination's parent chain is already a directory after the forward run. -/
theorem undo_dirs_eq (fs : FS) (hWF : WFFS fs) (ms : List MoveItem)
    (hB : BatchOK fs ms) (S : List MoveItem) (hSperm : S.Perm ms) (fs1 : FS)
    (hdirs1 : ∀ q, fs1.isDir q = true ↔ midDirsMem fs S q)
    (S2 : List MoveItem)
    (hS2perm : S2.Perm (S.map (fun m => ⟨m.to_path, m.from_path⟩))) :
    ∀ q, midDirsMem fs1 S2 q ↔ fs1.isDir q = true := by
  intro q
  constructor
  · rintro (h | ⟨hne, mr, hmr, hpre⟩)
    · exact h
    · obtain ⟨m, hm, hmeq⟩ := List.mem_map.mp (hS2perm.subset hmr)
      subst hmeq
      have hpre' : q <+: segsOf m.from_path := by
        refine List.IsPrefix.trans ?_ (List.dropLast_prefix _)
        simpa using hpre
      have hqnef : q ≠ segsOf m.from_path := by
        intro hc
        have hlen := hpre.length_le
        rw [List.length_dropLast] at hlen
        have hlen2 := congrArg List.length hc
        simp only [show segsOf (MoveItem.mk m.to_path m.from_path).to_path =
          segsOf m.from_path from rfl] at hlen ⊢
        have hne2 : segsOf m.from_path ≠ [] :=
          segsOf_canon_ne_nil (hB.1 m (hSperm.subset hm)).1
        have hpos : 1 ≤ (segsOf m.from_path).length := List.length_pos.mpr hne2
        omega
      have hqdir : q ∈ fs.dirs :=
        wf_file_prefix_dir hWF (hB.1 m (hSperm.subset hm)).2.2.1 hpre' hne hqnef
      exact (hdirs1 q).mpr (Or.inl (isDir_iff.mpr (Or.inr hqdir)))
  · intro h
    exact Or.inl h

theorem mem_dedup_fold :
    ∀ (l acc : List String) (x : String),
      x ∈ l.foldl (fun acc x => if acc.contains x then acc else acc ++ [x]) acc ↔
        x ∈ acc ∨ x ∈ l := by
  intro l
  induction l with
  | nil => intro acc x; simp
  | cons y l' ih =>
    intro acc x
    simp only [List.foldl_cons]
    by_cases hy : acc.contains y = true
    · rw [if_pos hy]
      rw [ih]
      constructor
      · rintro (h | h)
        · exact Or.inl h
        · exact Or.inr (List.mem_cons_of_mem _ h)
      · rintro (h | h)
        · exact Or.inl h
        · rcases List.mem_cons.mp h with h | h
          · exact Or.inl (h ▸ contains_iff_mem.mp hy)
          · exact Or.inr h
    · rw [if_neg hy]
      rw [ih]
      constructor
      · rintro (h | h)
        · rcases List.mem_append.mp h with h | h
          · exact Or.inl h
          · exact Or.inr (List.mem_cons.mpr (Or.inl (List.mem_singleton.mp h)))
        · exact Or.inr (List.mem_cons_of_mem _ h)
      · rintro (h | h)
        · exact Or.inl (List.mem_append_left _ h)
        · rcases List.mem_cons.mp h with h | h
          · exact Or.inl (List.mem_append_right _ (List.mem_singleton.mpr h))
          · exact Or.inr h

theorem mem_undoParentFolders {b : List MoveItem} {p : String} :
    p ∈ undoParentFolders b ↔ ∃ m ∈ b, m.to_path.toList.contains '/' = true ∧
      (beforeLastSlash m.to_path.toList).asString ≠ "" ∧
      p = (beforeLastSlash m.to_path.toList).asString := by
  unfold undoParentFolders
  rw [mem_dedup_fold]
  constructor
  · rintro (h | h)
    · cases h
    · obtain ⟨m, hm, hfm⟩ := List.mem_filterMap.mp h
      refine ⟨m, hm, ?_⟩
      by_cases hc : m.to_path.toList.contains '/' = true
      · rw [if_pos hc] at hfm
        by_cases hc2 : (beforeLastSlash m.to_path.toList).asString ≠ ""
        · rw [if_pos hc2] at hfm
          exact ⟨hc, hc2, (Option.some.inj hfm).symm⟩
        · rw [if_neg hc2] at hfm
          cases hfm
      · rw [if_neg hc] at hfm
        cases hfm
  · rintro ⟨m, hm, hc, hc2, hpeq⟩
    refine Or.inr (List.mem_filterMap.mpr ⟨m, hm, ?_⟩)
    rw [if_pos hc, if_pos hc2, hpeq]

theorem insertByPruneDepth_perm (p : String) (l : List String) :
    (insertByPruneDepth p l).Perm (p :: l) := by
  induction l with
  | nil => simp [insertByPruneDepth]
  | cons x xs ih =>
    simp only [insertByPruneDepth]
    split
    · exact (ih.cons x).trans (List.Perm.swap p x xs)
    · exact List.Perm.refl _

theorem sortPruneDesc_perm (ps : List String) : (sortPruneDesc ps).Perm ps := by
  suffices h : ∀ (l acc : List String),
      (l.foldl (fun acc p => insertByPruneDepth p acc) acc).Perm (l ++ acc) by
    simpa using h ps []
  intro l
  induction l with
  | nil => intro acc; simp
  | cons p l' ih =>
    intro acc
    simp only [List.foldl_cons]
    refine (ih (insertByPruneDepth p acc)).trans ?_
    have h2 : (l' ++ insertByPruneDepth p acc).Perm (l' ++ (p :: acc)) :=
      List.Perm.append_left l' (insertByPruneDepth_perm p acc)
    exact h2.trans List.perm_middle

theorem prune_stage_files (root : String) (fs2 : FS) (parents : List String) :
    ((if parents ≠ [] then remove_empty_folders root fs2 parents
      else (fs2, [])).1).files = fs2.files := by
  split
  · exact pruneGo_files root _ fs2 []
  · rfl

theorem prune_stage_subset (root : String) (fs2 : FS) (parents : List String) :
    ∀ q, q ∈ ((if parents ≠ [] then remove_empty_folders root fs2 parents
      else (fs2, [])).1).dirs → q ∈ fs2.dirs := by
  intro q
  split
  · exact pruneGo_dirs_subset root _ fs2 [] q
  · exact fun h => h

theorem prune_stage_keeps (root : String) (fs2 : FS) (parents : List String) :
    ∀ q, q ∈ fs2.dirs → (∀ p ∈ parents, segsOf p ≠ q) →
      q ∈ ((if parents ≠ [] then remove_empty_folders root fs2 parents
        else (fs2, [])).1).dirs := by
  intro q hq hp
  split
  · exact pruneGo_keeps root _ fs2 [] q hq
      (fun p' hp' => hp p' ((sortPruneDesc_perm parents).subset hp'))
  · exact hq

theorem successfulItemsOf_moved (L : List MoveItem) :
    successfulItemsOf (L.map (fun m => ⟨m.from_path, m.to_path, "moved", none⟩)) = L := by
  induction L with
  | nil => rfl
  | cons x xs ih =>
    unfold successfulItemsOf at ih ⊢
    simp only [List.map_cons, List.filter_cons]
    rw [if_pos (by simp)]
    rw [List.map_cons, ih]

theorem filter_error_moved (L : List MoveItem) :
    ((L.map (fun m => (⟨m.from_path, m.to_path, "moved", none⟩ : MoveResultItem))).filter
      (fun r => r.status = "error")) = [] := by
  apply List.filter_eq_nil_iff.mpr
  intro r hr
  obtain ⟨m, _, hmeq⟩ := List.mem_map.mp hr
  subst hmeq
  simp

/-- C2 (amended): for an independent batch over a well-formed store — file
sources, pairwise-distinct, fresh destinations none of which is a prefix of
another, destination chains free of existing files, canonical path strings —
applying the batch for real and undoing it (i) restores the original file
(path, size) entries exactly, (ii) consumes the recorded batch and reports
success, (iii) leaves no directory beyond the original ones except prefixes
of destination parent chains created by the forward move, (iv) never removes
a directory that is not the parent of some destination — in particular a
created ancestor strictly above the immediate parents survives — and (v)
does remove each destination's parent directory when nothing else occupies
it.  This is the round trip the code actually guarantees: only `rsplit`
parents are pruned, not the whole created chain. -/
theorem roundtrip_restores_files_and_prunes_immediate_parents
    (root : String) (fs : FS) (ms : List MoveItem)
    (hWF : WFFS fs) (hne : ms ≠ []) (hB : BatchOK fs ms) :
    (undo_last_moves root (apply_file_moves root ⟨fs, []⟩ ms false).1).1.fs.files =
      fs.files ∧
    (undo_last_moves root (apply_file_moves root ⟨fs, []⟩ ms false).1).1.history = [] ∧
    (∃ removed, (undo_last_moves root (apply_file_moves root ⟨fs, []⟩ ms false).1).2 =
      .success ((sortMovesByDepthDesc ms).map (fun m => ⟨m.to_path, m.from_path⟩))
        removed) ∧
    (∀ q, q ∈ (undo_last_moves root
        (apply_file_moves root ⟨fs, []⟩ ms false).1).1.fs.dirs →
      fs.isDir q = true ∨ (q ≠ [] ∧ ∃ m ∈ ms, q <+: (segsOf m.to_path).dropLast)) ∧
    (∀ q, (fs.isDir q = true ∨ (q ≠ [] ∧ ∃ m ∈ ms, q <+: (segsOf m.to_path).dropLast)) →
      (∀ m' ∈ ms, q ≠ (segsOf m'.to_path).dropLast) →
      (undo_last_moves root
        (apply_file_moves root ⟨fs, []⟩ ms false).1).1.fs.isDir q = true) ∧
    (∀ m ∈ ms, 2 ≤ (segsOf m.to_path).length →
      (∀ e ∈ fs.files,
        ¬ ((segsOf m.to_path).dropLast <+: e.1 ∧ e.1 ≠ (segsOf m.to_path).dropLast)) →
      (∀ d ∈ fs.dirs,
        ¬ ((segsOf m.to_path).dropLast <+: d ∧ d ≠ (segsOf m.to_path).dropLast)) →
      (∀ m' ∈ ms, ¬ ((segsOf m.to_path).dropLast <+: (segsOf m'.to_path).dropLast ∧
        (segsOf m.to_path).dropLast ≠ (segsOf m'.to_path).dropLast)) →
      (segsOf m.to_path).dropLast ∉ (undo_last_moves root
        (apply_file_moves root ⟨fs, []⟩ ms false).1).1.fs.dirs) := by
  -- abbreviations
  have hperm := sortMoves_perm ms
  obtain ⟨hA1, hA2, hA3, hA4⟩ := apply_moves_indep root fs ms hB hWF.2
  have hSne : sortMovesByDepthDesc ms ≠ [] := by
    intro hc
    have hlen := hperm.length_eq
    rw [hc] at hlen
    have h0 : ms.length = 0 := by simpa using hlen.symm
    exact hne (List.length_eq_zero.mp h0)
  have hP : apply_moves root fs ms false =
      (.ok ((sortMovesByDepthDesc ms).map
        (fun m => ⟨m.from_path, m.to_path, "moved", none⟩)),
       (apply_moves root fs ms false).2) := by
    rw [← hA1]
  have hstep1 : apply_file_moves root ⟨fs, []⟩ ms false =
      (⟨(apply_moves root fs ms false).2, [sortMovesByDepthDesc ms]⟩,
       .ok ((sortMovesByDepthDesc ms).map
        (fun m => ⟨m.from_path, m.to_path, "moved", none⟩))) := by
    unfold apply_file_moves
    rw [show (⟨fs, []⟩ : ServerState).fs = fs from rfl, hP]
    dsimp only
    rw [successfulItemsOf_moved]
    rw [if_pos (⟨rfl, hSne⟩ : false = false ∧ sortMovesByDepthDesc ms ≠ [])]
  -- the undo application
  have hB1 := undo_batchOK fs hWF ms hB (sortMovesByDepthDesc ms) hperm
    (apply_moves root fs ms false).2 hA2 hA3
  obtain ⟨hU1, hU2, hU3, _⟩ := apply_moves_indep root (apply_moves root fs ms false).2
    ((sortMovesByDepthDesc ms).map (fun m => ⟨m.to_path, m.from_path⟩)) hB1 hA4
  have hPu : apply_moves root (apply_moves root fs ms false).2
      ((sortMovesByDepthDesc ms).map (fun m => ⟨m.to_path, m.from_path⟩)) false =
      (.ok ((sortMovesByDepthDesc ((sortMovesByDepthDesc ms).map
          (fun m => ⟨m.to_path, m.from_path⟩))).map
        (fun m => ⟨m.from_path, m.to_path, "moved", none⟩)),
       (apply_moves root (apply_moves root fs ms false).2
        ((sortMovesByDepthDesc ms).map (fun m => ⟨m.to_path, m.from_path⟩)) false).2) := by
    rw [← hU1]
  have hstep2 : undo_last_moves root
      ⟨(apply_moves root fs ms false).2, [sortMovesByDepthDesc ms]⟩ =
      (⟨(if undoParentFolders (sortMovesByDepthDesc ms) ≠ [] then
          remove_empty_folders root
            ((apply_moves root (apply_moves root fs ms false).2
              ((sortMovesByDepthDesc ms).map (fun m => ⟨m.to_path, m.from_path⟩))
              false).2)
            (undoParentFolders (sortMovesByDepthDesc ms))
        else ((apply_moves root (apply_moves root fs ms false).2
              ((sortMovesByDepthDesc ms).map (fun m => ⟨m.to_path, m.from_path⟩))
              false).2, [])).1, []⟩,
       .success ((sortMovesByDepthDesc ms).map (fun m => ⟨m.to_path, m.from_path⟩))
        (if undoParentFolders (sortMovesByDepthDesc ms) ≠ [] then
          remove_empty_folders root
            ((apply_moves root (apply_moves root fs ms false).2
              ((sortMovesByDepthDesc ms).map (fun m => ⟨m.to_path, m.from_path⟩))
              false).2)
            (undoParentFolders (sortMovesByDepthDesc ms))
        else ((apply_moves root (apply_moves root fs ms false).2
              ((sortMovesByDepthDesc ms).map (fun m => ⟨m.to_path, m.from_path⟩))
              false).2, [])).2) := by
    unfold undo_last_moves
    dsimp only
    rw [hPu]
    dsimp only
    rw [filter_error_moved]
    rw [if_neg (by simp)]
  rw [hstep1, hstep2]
  dsimp only
  -- facts about the post-undo store
  have hF2 : ((apply_moves root (apply_moves root fs ms false).2
      ((sortMovesByDepthDesc ms).map (fun m => ⟨m.to_path, m.from_path⟩))
      false).2).files = fs.files := by
    rw [hU2, hA2]
    exact roundtrip_files fs ms hB (sortMovesByDepthDesc ms) hperm _ (sortMoves_perm _)
  have hD2 : ∀ q, ((apply_moves root (apply_moves root fs ms false).2
      ((sortMovesByDepthDesc ms).map (fun m => ⟨m.to_path, m.from_path⟩))
      false).2).isDir q = true ↔ midDirsMem fs (sortMovesByDepthDesc ms) q := by
    intro q
    rw [hU3 q]
    rw [undo_dirs_eq fs hWF ms hB (sortMovesByDepthDesc ms) hperm
      (apply_moves root fs ms false).2 hA3 _ (sortMoves_perm _) q]
    exact hA3 q
  -- facts about the prune candidate strings
  have hparfacts : ∀ p ∈ undoParentFolders (sortMovesByDepthDesc ms),
      p ≠ "." ∧ validate_path root p = true ∧
      ∃ m ∈ ms, segsOf p = (segsOf m.to_path).dropLast := by
    intro p hp
    obtain ⟨m, hmS, hc, hne'', hpeq⟩ := mem_undoParentFolders.mp hp
    have hmms : m ∈ ms := hperm.subset hmS
    have hcanT := (hB.1 m hmms).2.1
    have hlen2 : 2 ≤ (segsOf m.to_path).length := (canon_contains_slash_iff hcanT).mp hc
    have hglen : 2 ≤ (splitCharsOn '/' m.to_path.toList).length := by
      have := congrArg List.length (canon_segsOf hcanT)
      rw [List.length_map] at this
      omega
    obtain ⟨hcanp, hsegp, hdot, _⟩ := parentStr_spec hcanT hglen
    subst hpeq
    exact ⟨hdot, canon_validate root hcanp, m, hmms, hsegp⟩
  refine ⟨?_, rfl, ⟨_, rfl⟩, ?_, ?_, ?_⟩
  · -- files restored
    rw [prune_stage_files, hF2]
  · -- only created directories beyond the original ones
    intro q hq
    have hq2 := prune_stage_subset root _ _ q hq
    have hmid := (hD2 q).mp (isDir_iff.mpr (Or.inr hq2))
    rcases hmid with h | ⟨hne', m, hmS, hpre⟩
    · exact Or.inl h
    · exact Or.inr ⟨hne', m, hperm.subset hmS, hpre⟩
  · -- non-parent directories survive
    intro q hq hnp
    have hmid : midDirsMem fs (sortMovesByDepthDesc ms) q := by
      rcases hq with h | ⟨hne', m, hmms, hpre⟩
      · exact Or.inl h
      · exact Or.inr ⟨hne', m, hperm.symm.subset hmms, hpre⟩
    have hq2 := (hD2 q).mpr hmid
    rcases isDir_iff.mp hq2 with hnil | hq2'
    · exact isDir_iff.mpr (Or.inl hnil)
    · refine isDir_iff.mpr (Or.inr ?_)
      refine prune_stage_keeps root _ _ q hq2' ?_
      intro p hp
      obtain ⟨_, _, m', hm'ms, hpeq⟩ := hparfacts p hp
      rw [hpeq]
      exact fun hc => (hnp m' hm'ms) hc.symm
  · -- isolated destination parents are removed
    intro m hmms hlen2 hnofileunder hnodirunder hnoparunder
    have hmS : m ∈ sortMovesByDepthDesc ms := hperm.symm.subset hmms
    have hcanT := (hB.1 m hmms).2.1
    have hc : m.to_path.toList.contains '/' = true :=
      (canon_contains_slash_iff hcanT).mpr hlen2
    have hglen : 2 ≤ (splitCharsOn '/' m.to_path.toList).length := by
      have := congrArg List.length (canon_segsOf hcanT)
      rw [List.length_map] at this
      omega
    obtain ⟨hcanp, hsegp, hdot, hemp⟩ := parentStr_spec hcanT hglen
    have hpmem : (beforeLastSlash m.to_path.toList).asString ∈
        undoParentFolders (sortMovesByDepthDesc ms) :=
      mem_undoParentFolders.mpr ⟨m, hmS, hc, hemp, rfl⟩
    have hparne : undoParentFolders (sortMovesByDepthDesc ms) ≠ [] :=
      List.ne_nil_of_mem hpmem
    rw [if_pos hparne]
    unfold remove_empty_folders
    -- occupancy translation to the post-undo store
    have hnochildF : ∀ e ∈ ((apply_moves root (apply_moves root fs ms false).2
        ((sortMovesByDepthDesc ms).map (fun m => ⟨m.to_path, m.from_path⟩))
        false).2).files, ¬ (e.1 ≠ [] ∧ e.1.dropLast = (segsOf m.to_path).dropLast) := by
      intro e he
      rw [hF2] at he
      rintro ⟨hene, hedp⟩
      have hpre : (segsOf m.to_path).dropLast <+: e.1 := hedp ▸ List.dropLast_prefix e.1
      have hneq : e.1 ≠ (segsOf m.to_path).dropLast := by
        intro hc2
        have h1 := congrArg List.length hedp
        rw [List.length_dropLast] at h1
        have h2 := congrArg List.length hc2
        have h3 : 1 ≤ e.1.length := List.length_pos.mpr hene
        omega
      exact hnofileunder e he ⟨hpre, hneq⟩
    have hnochildD : ∀ d ∈ ((apply_moves root (apply_moves root fs ms false).2
        ((sortMovesByDepthDesc ms).map (fun m => ⟨m.to_path, m.from_path⟩))
        false).2).dirs, ¬ (d ≠ [] ∧ d.dropLast = (segsOf m.to_path).dropLast) := by
      intro d hd
      rintro ⟨hdne, hddp⟩
      have hpre : (segsOf m.to_path).dropLast <+: d := hddp ▸ List.dropLast_prefix d
      have hneq : d ≠ (segsOf m.to_path).dropLast := by
        intro hc2
        have h1 := congrArg List.length hddp
        rw [List.length_dropLast] at h1
        have h2 := congrArg List.length hc2
        have h3 : 1 ≤ d.length := List.length_pos.mpr hdne
        omega
      have hmid := (hD2 d).mp (isDir_iff.mpr (Or.inr hd))
      rcases hmid with h | ⟨_, m', hm'S, hpre'⟩
      · rcases isDir_iff.mp h with h | h
        · exact hdne h
        · exact hnodirunder d h ⟨hpre, hneq⟩
      · have hm'ms : m' ∈ ms := hperm.subset hm'S
        have htrans : (segsOf m.to_path).dropLast <+: (segsOf m'.to_path).dropLast :=
          hpre.trans hpre'
        by_cases heq2 : (segsOf m.to_path).dropLast = (segsOf m'.to_path).dropLast
        · -- then d sits strictly between a list and itself: impossible by lengths
          rw [← heq2] at hpre'
          have h1 := hpre'.length_le
          have h2 := congrArg List.length hddp
          rw [List.length_dropLast] at h2
          have h3 : 1 ≤ d.length := List.length_pos.mpr hdne
          omega
        · exact hnoparunder m' hm'ms ⟨htrans, heq2⟩
    refine pruneGo_removes root _ _ hnochildF hnochildD
      (sortPruneDesc (undoParentFolders (sortMovesByDepthDesc ms)))
      _ [] rfl (fun d hd => hd) ?_ ?_
    · intro p hp
      have hp' := (sortPruneDesc_perm _).subset hp
      obtain ⟨hdot', hval', _⟩ := hparfacts p hp'
      exact Or.inr hval'
    · refine ⟨(beforeLastSlash m.to_path.toList).asString,
        (sortPruneDesc_perm _).mem_iff.mpr hpmem, hdot, hsegp⟩

/-- Witness for C2's amended claim on the nested-destination example: the
file entry is restored, the immediate parent `a/b` is pruned, and the
created ancestor `a` survives. -/
theorem roundtrip_restores_files_witness :
    (undo_last_moves "/r" (apply_file_moves "/r" ⟨⟨[(["f.txt"], 1)], []⟩, []⟩
        [⟨"f.txt", "a/b/f.txt"⟩] false).1).1.fs.files = [(["f.txt"], 1)] ∧
    (["a", "b"] : Path) ∉ (undo_last_moves "/r" (apply_file_moves "/r"
        ⟨⟨[(["f.txt"], 1)], []⟩, []⟩ [⟨"f.txt", "a/b/f.txt"⟩] false).1).1.fs.dirs ∧
    (undo_last_moves "/r" (apply_file_moves "/r" ⟨⟨[(["f.txt"], 1)], []⟩, []⟩
        [⟨"f.txt", "a/b/f.txt"⟩] false).1).1.fs.isDir ["a"] = true := by
  have h := roundtrip_restores_files_and_prunes_immediate_parents "/r"
    ⟨[(["f.txt"], 1)], []⟩ [⟨"f.txt", "a/b/f.txt"⟩] (by decide) (by decide) (by decide)
  refine ⟨h.1, ?_, ?_⟩
  · have h6 := h.2.2.2.2.2 ⟨"f.txt", "a/b/f.txt"⟩ (by simp) (by decide)
      (by decide) (by decide) (by decide)
    have heq : (segsOf "a/b/f.txt").dropLast = (["a", "b"] : Path) := by decide
    rw [heq] at h6
    exact h6
  · have h5 := h.2.2.2.2.1 ["a"]
      (Or.inr ⟨by decide, ⟨"f.txt", "a/b/f.txt"⟩, by simp, by decide⟩)
      (by decide)
    exact h5

end DOrg
